import Mathlib

/-
Verification of the DO-ORM record store (schema-validated CRUD over a
key-value backend with single-field secondary indexes and a query
filter/sort/limit pipeline).

The definitions below are a shallow embedding of the DOModel class:
records are insertion-ordered association lists, the durable-object
storage is an association list from string keys to stored values, and
every storage mutation (put or delete) is additionally recorded in a
write log so that statements about which backend writes an operation
performs can be expressed and proved.
-/

set_option maxHeartbeats 1000000

namespace DOOrm

/-- Calendar components of a JavaScript Date value as exposed by the UTC
accessors that toISOString prints. A Date whose components violate
DateV.validB stands for an invalid Date (NaN time value); valid Dates
produced by the runtime always satisfy validB. -/
structure DateV where
  year : Nat
  month : Nat
  day : Nat
  hour : Nat
  minute : Nat
  second : Nat
  ms : Nat
deriving DecidableEq, Repr

/-- Component bounds of a well-formed calendar date (the day bound is the
loose 1..31 bound; finer month-length constraints are not needed, since
lexicographic component order already matches time order on this set). -/
def DateV.validB (d : DateV) : Bool :=
  decide (d.year < 10000) && decide (1 ≤ d.month) && decide (d.month ≤ 12) &&
  decide (1 ≤ d.day) && decide (d.day ≤ 31) && decide (d.hour < 24) &&
  decide (d.minute < 60) && decide (d.second < 60) && decide (d.ms < 1000)

/-- Linearisation of date components; on valid dates its numeric order
coincides with the chronological (time-value) order of the runtime. -/
def dateKey (d : DateV) : Nat :=
  ((((d.year * 13 + d.month) * 32 + d.day) * 24 + d.hour) * 60 + d.minute) * 60 * 1000
    + d.second * 1000 + d.ms

def digitChar (n : Nat) : Char := Char.ofNat (48 + n)

def digitVal (c : Char) : Nat := c.toNat - 48

def pad2 (n : Nat) : List Char := [digitChar (n / 10), digitChar (n % 10)]

def pad3 (n : Nat) : List Char :=
  [digitChar (n / 100), digitChar (n / 10 % 10), digitChar (n % 10)]

def pad4 (n : Nat) : List Char :=
  [digitChar (n / 1000), digitChar (n / 100 % 10), digitChar (n / 10 % 10), digitChar (n % 10)]

/-- The 24 characters of the canonical ISO-8601 form produced by
Date.toISOString: YYYY-MM-DDTHH:MM:SS.mmmZ. -/
def isoChars (d : DateV) : List Char :=
  pad4 d.year ++ ['-'] ++ pad2 d.month ++ ['-'] ++ pad2 d.day ++ ['T'] ++ pad2 d.hour ++
    [':'] ++ pad2 d.minute ++ [':'] ++ pad2 d.second ++ ['.'] ++ pad3 d.ms ++ ['Z']

def isoString (d : DateV) : String := String.mk (isoChars d)

/-- Parser for the canonical 24-character ISO form (the only form the
serializer ever stores). Non-conforming strings yield none; the new Date
constructor turns those into an invalid Date. -/
def isoParse (cs : List Char) : Option DateV :=
  match cs with
  | [y1, y2, y3, y4, sa, m1, m2, sb, d1, d2, sc, h1, h2, sd, n1, n2, se, o1, o2, sf, f1, f2, f3, sg] =>
    if sa = '-' ∧ sb = '-' ∧ sc = 'T' ∧ sd = ':' ∧ se = ':' ∧ sf = '.' ∧ sg = 'Z' ∧
       y1.isDigit = true ∧ y2.isDigit = true ∧ y3.isDigit = true ∧ y4.isDigit = true ∧
       m1.isDigit = true ∧ m2.isDigit = true ∧ d1.isDigit = true ∧ d2.isDigit = true ∧
       h1.isDigit = true ∧ h2.isDigit = true ∧ n1.isDigit = true ∧ n2.isDigit = true ∧
       o1.isDigit = true ∧ o2.isDigit = true ∧ f1.isDigit = true ∧ f2.isDigit = true ∧
       f3.isDigit = true then
      some ⟨digitVal y1 * 1000 + digitVal y2 * 100 + digitVal y3 * 10 + digitVal y4,
            digitVal m1 * 10 + digitVal m2,
            digitVal d1 * 10 + digitVal d2,
            digitVal h1 * 10 + digitVal h2,
            digitVal n1 * 10 + digitVal n2,
            digitVal o1 * 10 + digitVal o2,
            digitVal f1 * 100 + digitVal f2 * 10 + digitVal f3⟩
    else none
  | _ => none

/-- The invalid Date produced by new Date on an unparseable string
(month 0 violates validB). -/
def invalidDateV : DateV := ⟨0, 0, 0, 0, 0, 0, 0⟩

def parseIsoD (s : String) : DateV := (isoParse s.data).getD invalidDateV

theorem digitVal_digitChar (n : Nat) (h : n < 10) : digitVal (digitChar n) = n := by
  interval_cases n <;> rfl

theorem isDigit_digitChar (n : Nat) (h : n < 10) : (digitChar n).isDigit = true := by
  interval_cases n <;> rfl

/-- Parsing inverts printing on valid dates: the model counterpart of the
fact that new Date(d.toISOString()) has the same time value as d. -/
theorem isoParse_isoChars (d : DateV) (h : d.validB = true) : isoParse (isoChars d) = some d := by
  obtain ⟨y, mo, da, hh, mi, ss, ms⟩ := d
  simp only [DateV.validB, Bool.and_eq_true, decide_eq_true_eq] at h
  obtain ⟨⟨⟨⟨⟨⟨⟨⟨h1, h2⟩, h3⟩, h4⟩, h5⟩, h6⟩, h7⟩, h8⟩, h9⟩ := h
  have e2 : ∀ a : Nat, a < 100 →
      digitVal (digitChar (a / 10)) * 10 + digitVal (digitChar (a % 10)) = a := by
    intro a ha
    rw [digitVal_digitChar _ (by omega), digitVal_digitChar _ (by omega)]
    omega
  have e3 : ∀ a : Nat, a < 1000 →
      digitVal (digitChar (a / 100)) * 100 + digitVal (digitChar (a / 10 % 10)) * 10 +
        digitVal (digitChar (a % 10)) = a := by
    intro a ha
    rw [digitVal_digitChar _ (by omega), digitVal_digitChar _ (by omega),
      digitVal_digitChar _ (by omega)]
    omega
  have e4 : ∀ a : Nat, a < 10000 →
      digitVal (digitChar (a / 1000)) * 1000 + digitVal (digitChar (a / 100 % 10)) * 100 +
        digitVal (digitChar (a / 10 % 10)) * 10 + digitVal (digitChar (a % 10)) = a := by
    intro a ha
    rw [digitVal_digitChar _ (by omega), digitVal_digitChar _ (by omega),
      digitVal_digitChar _ (by omega), digitVal_digitChar _ (by omega)]
    omega
  simp only [isoChars, pad4, pad2, pad3, List.cons_append, List.nil_append,
    List.singleton_append, List.append_assoc]
  rw [isoParse]
  rw [if_pos]
  · simp only [Option.some.injEq, DateV.mk.injEq]
    refine ⟨?_, ?_, ?_, ?_, ?_, ?_, ?_⟩
    · exact e4 y h1
    · exact e2 mo (by omega)
    · exact e2 da (by omega)
    · exact e2 hh (by omega)
    · exact e2 mi (by omega)
    · exact e2 ss (by omega)
    · exact e3 ms (by omega)
  · refine ⟨rfl, rfl, rfl, rfl, rfl, rfl, rfl, ?_, ?_, ?_, ?_, ?_, ?_, ?_, ?_, ?_, ?_, ?_, ?_,
      ?_, ?_, ?_, ?_, ?_⟩ <;> exact isDigit_digitChar _ (by omega)

theorem parseIsoD_isoString (d : DateV) (h : d.validB = true) : parseIsoD (isoString d) = d := by
  simp only [parseIsoD, isoString, isoParse_isoChars d h, Option.getD_some]

/-- Payload of a composite (object or array) value. The source never looks
inside composite values: validation checks only the outermost runtime type,
the codec passes composites through wholesale, and strict equality between
composites is reference equality in JavaScript (approximated structurally
here), so retaining one level of structure loses nothing any claim uses. -/
inductive Prim where
  | pstr : String → Prim
  | pnum : Int → Prim
  | pnan : Prim
  | pbool : Bool → Prim
  | pnull : Prim
  | pdate : DateV → Prim
deriving DecidableEq, Repr

/-- Runtime values a record field can hold. vnan is the NaN number and
vnull is null; an invalid Date is a vdate whose components violate
DateV.validB. -/
inductive Value where
  | vstr : String → Value
  | vnum : Int → Value
  | vnan : Value
  | vbool : Bool → Value
  | vnull : Value
  | vdate : DateV → Value
  | vobj : List (String × Prim) → Value
  | varr : List Prim → Value
deriving DecidableEq, Repr

def jsStringPrim : Prim → String
  | .pstr s => s
  | .pnum n => toString n
  | .pnan => "NaN"
  | .pbool b => cond b "true" "false"
  | .pnull => ""
  | .pdate d => isoString d

/-- The generic JavaScript String(value) coercion used when an index key is
built from a non-Date value. Array elements join with commas (null joining
as the empty string); a plain object renders as [object Object]. Dates
inside arrays actually render in a locale form, modelled by the ISO form
here; no statement below depends on that corner. -/
def jsString : Value → String
  | .vstr s => s
  | .vnum n => toString n
  | .vnan => "NaN"
  | .vbool b => cond b "true" "false"
  | .vnull => "null"
  | .vdate d => isoString d
  | .vobj _ => "[object Object]"
  | .varr l => String.intercalate "," (l.map jsStringPrim)

/-- getIndexKey normalisation of a field value (part_001 lines 122-125):
a Date renders as its toISOString form, anything else via String(value);
a missing field renders as the string undefined. -/
def indexValueStr : Option Value → String
  | some (.vdate d) => isoString d
  | some v => jsString v
  | none => "undefined"

/-- JavaScript falsiness of the id lookup in create (part_001 line 213). -/
def isFalsy : Option Value → Bool
  | none => true
  | some (.vstr s) => s == ""
  | some (.vnum n) => n == 0
  | some .vnan => true
  | some (.vbool b) => !b
  | some .vnull => true
  | some _ => false

/-- A record: an insertion-ordered mapping from field names to values,
as a JavaScript object (no duplicate keys arise from the runtime; where a
statement needs that fact it carries an explicit Nodup hypothesis). -/
abbrev Rec := List (String × Value)

/-- First-occurrence association lookup: property access obj[k]. -/
def alookup {α : Type} (k : String) : List (String × α) → Option α
  | [] => none
  | p :: rest => if p.1 = k then some p.2 else alookup k rest

def hasKey {α : Type} (l : List (String × α)) (k : String) : Bool :=
  (alookup k l).isSome

/-- The declared field kinds (types.ts FieldType). -/
inductive FieldType where
  | string
  | number
  | boolean
  | date
  | object
  | array
deriving DecidableEq, Repr

abbrev Schema := List (String × FieldType)

/-- The error taxonomy of the thrown Error values, by message shape. -/
inductive DOError where
  | missingField : String → DOError
  | typeMismatch : String → DOError
  | mustHaveId : DOError
  | alreadyExists : String → DOError
  | notFound : String → DOError
deriving DecidableEq, Repr

/-- validateField (part_001 lines 62-97): runtime type check of one value
against a declared kind. The NaN check on numbers and the invalid-Date
check on dates are the vnan case and the validB test respectively. The
object case is the check typeof value !== 'object' || value === null ||
Array.isArray(value) (line 85): a Date has typeof 'object', is not null
and is not an array, so a Date value (valid or not) passes for an
object-kind field. -/
def validateField (v : Value) (ft : FieldType) (fieldName : String) : Except DOError Unit :=
  match ft with
  | .string => match v with
    | .vstr _ => .ok ()
    | _ => .error (.typeMismatch fieldName)
  | .number => match v with
    | .vnum _ => .ok ()
    | _ => .error (.typeMismatch fieldName)
  | .boolean => match v with
    | .vbool _ => .ok ()
    | _ => .error (.typeMismatch fieldName)
  | .date => match v with
    | .vdate d => if d.validB then .ok () else .error (.typeMismatch fieldName)
    | _ => .error (.typeMismatch fieldName)
  | .object => match v with
    | .vobj _ => .ok ()
    | .vdate _ => .ok ()
    | _ => .error (.typeMismatch fieldName)
  | .array => match v with
    | .varr _ => .ok ()
    | _ => .error (.typeMismatch fieldName)

/-- validateSchema (part_001 lines 102-110): walk the schema entries in
declaration order, failing on the first absent or ill-typed field; extra
record fields are not examined. -/
def validateSchema (schema : Schema) (data : Rec) : Except DOError Unit :=
  match schema with
  | [] => .ok ()
  | (fieldName, ft) :: rest =>
    match alookup fieldName data with
    | none => .error (.missingField fieldName)
    | some v =>
      match validateField v ft fieldName with
      | .error e => .error e
      | .ok () => validateSchema rest data

/-- serialize (part_001 lines 137-147): Dates become their ISO strings,
every other value passes through. -/
def serializeVal : Value → Value
  | .vdate d => .vstr (isoString d)
  | v => v

def serializeRec (data : Rec) : Rec := data.map (fun p => (p.1, serializeVal p.2))

/-- deserialize (part_001 lines 152-163): a string stored under a field the
schema declares as date comes back as new Date(value); everything else,
including fields absent from the schema, passes through unchanged. -/
def deserializeVal (schema : Schema) (k : String) (v : Value) : Value :=
  match alookup k schema, v with
  | some .date, .vstr s => .vdate (parseIsoD s)
  | _, _ => v

def deserializeRec (schema : Schema) (data : Rec) : Rec :=
  data.map (fun p => (p.1, deserializeVal schema p.1 p.2))

/-- A value held by the durable-object storage: either a serialized record
object or an index entry (array of record ids). -/
inductive Stored where
  | srec : Rec → Stored
  | sids : List String → Stored
deriving DecidableEq, Repr

/-- A backend write, as recorded in the write log. -/
inductive WOp where
  | putW : String → WOp
  | delW : String → WOp
deriving DecidableEq, Repr

def wopKey : WOp → String
  | .putW k => k
  | .delW k => k

/-- The storage state: key-value data plus the log of every put and delete
issued so far (the log is pure instrumentation used to state which backend
writes an operation performs; reads are not logged). -/
structure Store where
  data : List (String × Stored)
  log : List WOp
deriving DecidableEq, Repr

def emptyStore : Store := ⟨[], []⟩

def aput {α : Type} (k : String) (v : α) : List (String × α) → List (String × α)
  | [] => [(k, v)]
  | p :: rest => if p.1 = k then (k, v) :: rest else p :: aput k v rest

def adel {α : Type} (k : String) (l : List (String × α)) : List (String × α) :=
  l.filter (fun p => !(p.1 == k))

def sget (st : Store) (k : String) : Option Stored := alookup k st.data

def sput (st : Store) (k : String) (v : Stored) : Store :=
  ⟨aput k v st.data, st.log ++ [WOp.putW k]⟩

def sdel (st : Store) (k : String) : Store :=
  ⟨adel k st.data, st.log ++ [WOp.delW k]⟩

/-- The identifier list held by an index entry, as read by
storage.get(indexKey) with a fallback to the empty array. A record
object sitting under an index key would be a type-confused read in the
source; it yields the empty list here and is unreachable from any state
the operations construct. -/
def entryAt (st : Store) (k : String) : List String :=
  match sget st k with
  | some (.sids l) => l
  | _ => []

/-- The static data of one model class: its schema, its declared indexed
fields and its table name. -/
structure ModelDef where
  schema : Schema
  indexes : List String
  tableName : String

/-- getRecordKey (part_001 lines 115-117). -/
def getRecordKey (m : ModelDef) (id : String) : String :=
  m.tableName ++ ":" ++ id

/-- The index key for a field and an already-normalised value string. -/
def idxKeyS (m : ModelDef) (field s : String) : String :=
  "index:" ++ m.tableName ++ ":" ++ field ++ ":" ++ s

/-- getIndexKey (part_001 lines 122-125). -/
def getIndexKey (m : ModelDef) (field : String) (v : Option Value) : String :=
  idxKeyS m field (indexValueStr v)

/-- The loop body of updateIndexes for one indexed field (part_001 lines
169-180): add the id to the entry for the record's value of that field,
writing only when the id was not already present. -/
def uiStep (m : ModelDef) (id : String) (data : Rec) (acc : Store) (f : String) : Store :=
  let indexKey := getIndexKey m f (alookup f data)
  let existingIds := entryAt acc indexKey
  if id ∈ existingIds then acc
  else sput acc indexKey (.sids (existingIds ++ [id]))

/-- updateIndexes (part_001 lines 168-182). -/
def updateIndexes (m : ModelDef) (id : String) (data : Rec) (st : Store) : Store :=
  m.indexes.foldl (uiStep m id data) st

/-- The loop body of removeFromIndexes for one indexed field (part_001
lines 188-201): filter the id out of the entry for the record's value of
that field, deleting the entry key when the filtered list is empty. -/
def rfiStep (m : ModelDef) (id : String) (data : Rec) (acc : Store) (f : String) : Store :=
  let indexKey := getIndexKey m f (alookup f data)
  let existingIds := entryAt acc indexKey
  let filteredIds := existingIds.filter (fun e => !(e == id))
  if 0 < filteredIds.length then sput acc indexKey (.sids filteredIds)
  else sdel acc indexKey

/-- removeFromIndexes (part_001 lines 187-202). -/
def removeFromIndexes (m : ModelDef) (id : String) (data : Rec) (st : Store) : Store :=
  m.indexes.foldl (rfiStep m id data) st

/-- create (part_001 lines 207-231): validate, reject a falsy id, reject
an existing record key, then persist the serialized record and index the
in-memory record. Every throw happens before the first write, so the
failing cases return the store unchanged. -/
def create (m : ModelDef) (data : Rec) (st : Store) : Store × Except DOError Rec :=
  match validateSchema m.schema data with
  | .error e => (st, .error e)
  | .ok () =>
    if isFalsy (alookup "id" data) then (st, .error .mustHaveId)
    else
      match sget st (getRecordKey m (indexValueStr (alookup "id" data))) with
      | some _ => (st, .error (.alreadyExists (indexValueStr (alookup "id" data))))
      | none =>
        (updateIndexes m (indexValueStr (alookup "id" data)) data
          (sput st (getRecordKey m (indexValueStr (alookup "id" data)))
            (.srec (serializeRec data))),
         .ok data)

/-- find (part_001 lines 236-245): point lookup plus deserialize; absent
is null, not an error. An index entry sitting under a record key would be
read as an object of its array indices by Object.entries, hence the
enumerated form in the sids case (unreachable from constructed states). -/
def find (m : ModelDef) (id : String) (st : Store) : Option Rec :=
  match sget st (getRecordKey m id) with
  | none => none
  | some (.srec r) => some (deserializeRec m.schema r)
  | some (.sids l) =>
    some (deserializeRec m.schema ((l.enum).map (fun p => (toString p.1, Value.vstr p.2))))

/-- JavaScript strict inequality updates[field] !== existing[field]
(part_001 line 264) between a caller-supplied update value and the
corresponding value of the record find returned. For primitives (string,
number, boolean, null) strict inequality compares values, with NaN unequal
to everything including itself. For Date, plain-object and array operands
it compares references; existing comes from find, whose deserialize
rebuilds the record from storage (a fresh Date for every date-kind field,
and storage-owned clones for other composites), so no composite in
existing can be the same reference as a caller-supplied composite in
updates: composite against composite is always unequal here. Operands of
different runtime types are strictly unequal (no coercion). -/
def jsStrictNeB : Value → Value → Bool
  | .vstr s, .vstr t => !(s == t)
  | .vnum a, .vnum b => !(a == b)
  | .vbool a, .vbool b => !(a == b)
  | .vnull, .vnull => false
  | _, _ => true

/-- Lift of jsStrictNeB to possibly-absent properties: undefined === undefined,
and undefined is strictly unequal to every value. -/
def jsStrictNeO : Option Value → Option Value → Bool
  | some a, some b => jsStrictNeB a b
  | none, none => false
  | _, _ => true

/-- The changed-index detection of update (part_001 lines 263-265): some
declared indexed field is present in the partial update and its new value
is strictly unequal (jsStrictNeO: value comparison for primitives,
reference comparison — here always unequal — for composites) to the
existing value. -/
def anyIndexChangedB (m : ModelDef) (updates existing : Rec) : Bool :=
  m.indexes.any (fun f => hasKey updates f && jsStrictNeO (alookup f updates) (alookup f existing))

/-- The spread merge of update (part_001 line 257): existing fields keep
their position, values overridden by the partial update where present;
fields new in the update are appended in their own order. -/
def mergeRec (existing updates : Rec) : Rec :=
  existing.map
    (fun p => (p.1, match alookup p.1 updates with
      | some w => w
      | none => p.2))
  ++ updates.filter (fun p => !(hasKey existing p.1))

/-- update (part_001 lines 250-281): find, merge, re-validate the entire
merged record, then remove-and-re-add index entries only when some indexed
field changed, and persist the merged record. Throws happen before any
write, so failing cases return the store unchanged. The two identically
guarded conditionals of the source (remove before the record put, re-add
after it) are merged into one conditional around the same sequence of
writes. -/
def update (m : ModelDef) (id : String) (updates : Rec) (st : Store) :
    Store × Except DOError Rec :=
  match find m id st with
  | none => (st, .error (.notFound id))
  | some existing =>
    match validateSchema m.schema (mergeRec existing updates) with
    | .error e => (st, .error e)
    | .ok () =>
      (if anyIndexChangedB m updates existing then
        updateIndexes m id (mergeRec existing updates)
          (sput (removeFromIndexes m id existing st) (getRecordKey m id)
            (.srec (serializeRec (mergeRec existing updates))))
      else sput st (getRecordKey m id) (.srec (serializeRec (mergeRec existing updates))),
       .ok (mergeRec existing updates))

/-- delete (part_001 lines 286-299): a missing record returns false with
no writes; otherwise the indexes are cleaned first, then the record key
is deleted. -/
def deleteRec (m : ModelDef) (id : String) (st : Store) : Store × Bool :=
  match find m id st with
  | none => (st, false)
  | some existing =>
    (sdel (removeFromIndexes m id existing st) (getRecordKey m id), true)

/-- asc or desc sort direction. -/
inductive Dir where
  | asc
  | desc
deriving DecidableEq, Repr

/-- The query options record (types.ts QueryOptions); the where clause is
named whereQ because where is reserved in Lean. -/
structure QueryOptions where
  whereQ : Option Rec := none
  after : Option DateV := none
  before : Option DateV := none
  limit : Option Nat := none
  orderBy : Option (String × Dir) := none

/-- Character-level model of the byte-level prefix test the backend list
operation and String.startsWith perform; on valid UTF-8 the two agree. -/
def strStartsWith (s pre : String) : Bool := List.isPrefixOf pre.data s.data

/-- Stripping the table prefix from a record key: replacing the first
occurrence of the prefix with the empty string on a key that starts with
the prefix is exactly dropping the prefix length. -/
def stripPre (pre k : String) : String := String.mk (k.data.drop pre.data.length)

/-- Candidate-identifier acquisition (part_001 lines 305-328): consult the
index entry for the first where entry when that field is indexed; scan
every key under the table prefix only when candidates are empty and no
where clause was supplied at all. -/
def queryCandidates (m : ModelDef) (opts : QueryOptions) (st : Store) : List String :=
  let fromIndex : List String :=
    match opts.whereQ with
    | some ((f, v) :: _) => if f ∈ m.indexes then entryAt st (getIndexKey m f (some v)) else []
    | some [] => []
    | none => []
  if fromIndex.isEmpty && opts.whereQ.isNone then
    (st.data.filter (fun p => strStartsWith p.1 (m.tableName ++ ":"))).map
      (fun p => stripPre (m.tableName ++ ":") p.1)
  else fromIndex

/-- Candidate resolution (part_001 lines 331-337): each candidate id is
fetched individually; ids whose record is missing are silently skipped. -/
def queryLoad (m : ModelDef) (opts : QueryOptions) (st : Store) : List Rec :=
  (queryCandidates m opts st).filterMap (fun id => find m id st)

/-- One record against the full where clause (part_001 lines 343-352):
field-for-field strict equality, a missing field never equal. -/
def whereKeep (w : Rec) (r : Rec) : Bool :=
  w.all (fun p => alookup p.1 r == some p.2)

def applyWhere (opts : QueryOptions) (rs : List Rec) : List Rec :=
  match opts.whereQ with
  | some w => rs.filter (whereKeep w)
  | none => rs

/-- JavaScript d1 <= d2 on Date values: false whenever either side is an
invalid Date (NaN comparison), otherwise time-value comparison. -/
def jsDateLeB (d1 d2 : DateV) : Bool :=
  d1.validB && d2.validB && decide (dateKey d1 ≤ dateKey d2)

/-- JavaScript d1 >= d2 on Date values. -/
def jsDateGeB (d1 d2 : DateV) : Bool :=
  d1.validB && d2.validB && decide (dateKey d2 ≤ dateKey d1)

/-- One record against the date-range bounds (part_001 lines 355-369):
every schema field of date kind whose runtime value is a Date is checked
against both exclusive bounds; the record survives only if no such field
violates a set bound. -/
def dateKeep (m : ModelDef) (afterB beforeB : Option DateV) (r : Rec) : Bool :=
  m.schema.all (fun p =>
    match p.2 with
    | .date =>
      match alookup p.1 r with
      | some (.vdate d) =>
        !(match afterB with
          | some a => jsDateLeB d a
          | none => false) &&
        !(match beforeB with
          | some b => jsDateGeB d b
          | none => false)
      | _ => true
    | _ => true)

def applyDateRange (m : ModelDef) (opts : QueryOptions) (rs : List Rec) : List Rec :=
  if opts.after.isSome || opts.before.isSome then
    rs.filter (dateKeep m opts.after opts.before)
  else rs

/-- JavaScript aVal < bVal for the comparator (part_001 lines 374-383),
restricted to same-type operands; mixed-type comparisons (which coerce in
JavaScript) are irrelevant to records sorted on one schema-typed field. -/
def valueLtB : Option Value → Option Value → Bool
  | some (.vstr a), some (.vstr b) => decide (a < b)
  | some (.vnum a), some (.vnum b) => decide (a < b)
  | some (.vbool a), some (.vbool b) => !a && b
  | some (.vdate a), some (.vdate b) => a.validB && b.validB && decide (dateKey a < dateKey b)
  | _, _ => false

/-- The effective comparator of orderBy as a total boolean order usable by
a stable sort: comparison at most zero. -/
def sortLe (f : String) (dir : Dir) (a b : Rec) : Bool :=
  match dir with
  | .asc => !(valueLtB (alookup f b) (alookup f a))
  | .desc => !(valueLtB (alookup f a) (alookup f b))

def applySort (opts : QueryOptions) (rs : List Rec) : List Rec :=
  match opts.orderBy with
  | some (f, dir) => rs.mergeSort (sortLe f dir)
  | none => rs

/-- The limit stage (part_001 lines 387-389): options.limit is tested for
truthiness, so a limit of 0 is treated as absent. -/
def applyLimit (opts : QueryOptions) (rs : List Rec) : List Rec :=
  match opts.limit with
  | some n => if n = 0 then rs else rs.take n
  | none => rs

/-- The filtered and sorted (but not yet truncated) query result. -/
def querySorted (m : ModelDef) (opts : QueryOptions) (st : Store) : List Rec :=
  applySort opts (applyDateRange m opts (applyWhere opts (queryLoad m opts st)))

/-- query (part_001 lines 304-392): candidates, load, where filter, date
range filter, sort, limit. -/
def query (m : ModelDef) (opts : QueryOptions) (st : Store) : List Rec :=
  applyLimit opts (querySorted m opts st)

/-- The stores reachable from the empty backend by running the mutating
operations (find, query, count and all never write). -/
inductive Reached (m : ModelDef) : Store → Prop where
  | empty : Reached m emptyStore
  | createS : ∀ st data, Reached m st → Reached m (create m data st).1
  | updateS : ∀ st id updates, Reached m st → Reached m (update m id updates st).1
  | deleteS : ∀ st id, Reached m st → Reached m (deleteRec m id st).1

theorem alookup_aput {α : Type} (k k2 : String) (v : α) (l : List (String × α)) :
    alookup k2 (aput k v l) = if k = k2 then some v else alookup k2 l := by
  induction l with
  | nil =>
    simp only [aput, alookup]
  | cons p rest ih =>
    by_cases h1 : p.1 = k
    · by_cases h2 : k = k2
      · simp [aput, alookup, h1, h2]
      · have h2s : ¬ k2 = k := fun h => h2 h.symm
        have h12 : ¬ p.1 = k2 := fun h => h2 (h1.symm.trans h)
        simp [aput, alookup, h1, h2, h2s, h12]
    · by_cases h2 : p.1 = k2
      · have hk : ¬ k = k2 := fun h => h1 (h2.trans h.symm)
        have hk2 : ¬ k2 = k := fun h => hk h.symm
        simp [aput, alookup, h1, h2, hk, hk2]
      · simp [aput, alookup, h1, h2, ih]

theorem alookup_adel {α : Type} (k k2 : String) (l : List (String × α)) :
    alookup k2 (adel k l) = if k = k2 then none else alookup k2 l := by
  induction l with
  | nil => simp [adel, alookup]
  | cons p rest ih =>
    simp only [adel, List.filter_cons] at ih ⊢
    by_cases h1 : p.1 = k
    · have hb : ¬ ((!(p.1 == k)) = true) := by simp [h1]
      rw [if_neg hb, ih]
      by_cases h2 : k = k2
      · simp [h2]
      · have h12 : ¬ p.1 = k2 := fun h => h2 (h1.symm.trans h)
        simp [alookup, h2, h12]
    · have hb : ((!(p.1 == k)) = true) := by simp [h1]
      rw [if_pos hb]
      by_cases h2 : p.1 = k2
      · have hk : ¬ k = k2 := fun h => h1 (h2.trans h.symm)
        simp [alookup, h2, hk]
      · by_cases h3 : k = k2
        · subst h3
          simp [alookup, h2, ih]
        · simp [alookup, h2, h3, ih]

theorem sget_sput (st : Store) (k k2 : String) (v : Stored) :
    sget (sput st k v) k2 = if k = k2 then some v else sget st k2 := by
  simp [sget, sput, alookup_aput]

theorem sget_sdel (st : Store) (k k2 : String) :
    sget (sdel st k) k2 = if k = k2 then none else sget st k2 := by
  simp [sget, sdel, alookup_adel]

theorem log_sput (st : Store) (k : String) (v : Stored) :
    (sput st k v).log = st.log ++ [WOp.putW k] := rfl

theorem log_sdel (st : Store) (k : String) :
    (sdel st k).log = st.log ++ [WOp.delW k] := rfl

/-- The identifier list an updateIndexes step leaves at its own key. -/
def addOnce (l : List String) (id : String) : List String :=
  if id ∈ l then l else l ++ [id]

theorem mem_addOnce (l : List String) (id x : String) :
    x ∈ addOnce l id ↔ x ∈ l ∨ x = id := by
  by_cases h : id ∈ l
  · simp only [addOnce, if_pos h]
    constructor
    · exact fun hx => Or.inl hx
    · rintro (hx | rfl)
      · exact hx
      · exact h
  · simp [addOnce, if_neg h]

theorem addOnce_addOnce (l : List String) (id : String) :
    addOnce (addOnce l id) id = addOnce l id := by
  have h : id ∈ addOnce l id := (mem_addOnce l id id).2 (Or.inr rfl)
  rw [show addOnce (addOnce l id) id =
    if id ∈ addOnce l id then addOnce l id else addOnce l id ++ [id] from rfl, if_pos h]

theorem entryAt_eq_of_sget {st : Store} {k : String} {l : List String}
    (h : sget st k = some (.sids l)) : entryAt st k = l := by
  simp [entryAt, h]

theorem sget_uiStep (m : ModelDef) (id : String) (data : Rec) (st : Store) (f : String)
    (k : String) :
    sget (uiStep m id data st f) k =
      if k = getIndexKey m f (alookup f data) then some (.sids (addOnce (entryAt st k) id))
      else sget st k := by
  have hstep : uiStep m id data st f =
      if id ∈ entryAt st (getIndexKey m f (alookup f data)) then st
      else sput st (getIndexKey m f (alookup f data))
        (.sids (entryAt st (getIndexKey m f (alookup f data)) ++ [id])) := rfl
  rw [hstep]
  by_cases hmem : id ∈ entryAt st (getIndexKey m f (alookup f data))
  · rw [if_pos hmem]
    by_cases hk : k = getIndexKey m f (alookup f data)
    · rw [if_pos hk, hk]
      cases hsg : sget st (getIndexKey m f (alookup f data)) with
      | none => simp [entryAt, hsg] at hmem
      | some sv =>
        cases sv with
        | srec r => simp [entryAt, hsg] at hmem
        | sids l =>
          have hl : entryAt st (getIndexKey m f (alookup f data)) = l :=
            entryAt_eq_of_sget hsg
          rw [hl] at hmem ⊢
          rw [show addOnce l id = if id ∈ l then l else l ++ [id] from rfl, if_pos hmem]
    · rw [if_neg hk]
  · rw [if_neg hmem]
    by_cases hk : k = getIndexKey m f (alookup f data)
    · rw [if_pos hk, hk, sget_sput, if_pos rfl]
      rw [show addOnce (entryAt st (getIndexKey m f (alookup f data))) id =
        if id ∈ entryAt st (getIndexKey m f (alookup f data)) then
          entryAt st (getIndexKey m f (alookup f data))
        else entryAt st (getIndexKey m f (alookup f data)) ++ [id] from rfl, if_neg hmem]
    · rw [if_neg hk, sget_sput, if_neg (fun h => hk h.symm)]

theorem sget_rfiStep (m : ModelDef) (id : String) (data : Rec) (st : Store) (f : String)
    (k : String) :
    sget (rfiStep m id data st f) k =
      if k = getIndexKey m f (alookup f data) then
        (if ((entryAt st k).filter (fun e => !(e == id))).length = 0 then none
         else some (.sids ((entryAt st k).filter (fun e => !(e == id)))))
      else sget st k := by
  have hstep : rfiStep m id data st f =
      if 0 < ((entryAt st (getIndexKey m f (alookup f data))).filter
          (fun e => !(e == id))).length
      then sput st (getIndexKey m f (alookup f data))
        (.sids ((entryAt st (getIndexKey m f (alookup f data))).filter (fun e => !(e == id))))
      else sdel st (getIndexKey m f (alookup f data)) := rfl
  rw [hstep]
  by_cases hk : k = getIndexKey m f (alookup f data)
  · rw [hk]
    by_cases hlen : 0 < ((entryAt st (getIndexKey m f (alookup f data))).filter
        (fun e => !(e == id))).length
    · rw [if_pos hlen, sget_sput, if_pos rfl, if_pos rfl, if_neg (by omega)]
    · rw [if_neg hlen, sget_sdel, if_pos rfl, if_pos rfl, if_pos (by omega)]
  · by_cases hlen : 0 < ((entryAt st (getIndexKey m f (alookup f data))).filter
        (fun e => !(e == id))).length
    · rw [if_pos hlen, sget_sput, if_neg (fun h => hk h.symm), if_neg hk]
    · rw [if_neg hlen, sget_sdel, if_neg (fun h => hk h.symm), if_neg hk]

/-- The index-entry keys a pass over the given fields touches. -/
def touchedKeys (m : ModelDef) (data : Rec) (fs : List String) : List String :=
  fs.map (fun f => getIndexKey m f (alookup f data))

theorem mem_touchedKeys_cons (m : ModelDef) (data : Rec) (k f : String) (fs : List String) :
    k ∈ touchedKeys m data (f :: fs) ↔
      k = getIndexKey m f (alookup f data) ∨ k ∈ touchedKeys m data fs := by
  simp [touchedKeys]

theorem sget_foldl_uiStep (m : ModelDef) (id : String) (data : Rec) (fs : List String)
    (st : Store) (k : String) :
    sget (fs.foldl (uiStep m id data) st) k =
      if k ∈ touchedKeys m data fs then some (.sids (addOnce (entryAt st k) id))
      else sget st k := by
  induction fs generalizing st with
  | nil => simp [touchedKeys]
  | cons f rest ih =>
    rw [List.foldl_cons, ih]
    by_cases hk : k = getIndexKey m f (alookup f data)
    · have hE : entryAt (uiStep m id data st f) k = addOnce (entryAt st k) id := by
        rw [entryAt, sget_uiStep, if_pos hk]
      have hcons : k ∈ touchedKeys m data (f :: rest) :=
        (mem_touchedKeys_cons m data k f rest).2 (Or.inl hk)
      by_cases hmem : k ∈ touchedKeys m data rest
      · rw [if_pos hmem, if_pos hcons, hE, addOnce_addOnce]
      · rw [if_neg hmem, if_pos hcons, sget_uiStep, if_pos hk]
    · have hE : entryAt (uiStep m id data st f) k = entryAt st k := by
        rw [entryAt, sget_uiStep, if_neg hk]
        rfl
      by_cases hmem : k ∈ touchedKeys m data rest
      · have hcons : k ∈ touchedKeys m data (f :: rest) :=
          (mem_touchedKeys_cons m data k f rest).2 (Or.inr hmem)
        rw [if_pos hmem, if_pos hcons, hE]
      · have hcons : k ∉ touchedKeys m data (f :: rest) := by
          intro h
          rcases (mem_touchedKeys_cons m data k f rest).1 h with h1 | h1
          · exact hk h1
          · exact hmem h1
        rw [if_neg hmem, if_neg hcons, sget_uiStep, if_neg hk]

theorem sget_updateIndexes (m : ModelDef) (id : String) (data : Rec) (st : Store)
    (k : String) :
    sget (updateIndexes m id data st) k =
      if k ∈ touchedKeys m data m.indexes then some (.sids (addOnce (entryAt st k) id))
      else sget st k :=
  sget_foldl_uiStep m id data m.indexes st k

theorem filter_ne_idem (l : List String) (id : String) :
    (l.filter (fun e => !(e == id))).filter (fun e => !(e == id)) = l.filter (fun e => !(e == id)) := by
  rw [List.filter_filter]
  simp

theorem sget_foldl_rfiStep (m : ModelDef) (id : String) (data : Rec) (fs : List String)
    (st : Store) (k : String) :
    sget (fs.foldl (rfiStep m id data) st) k =
      if k ∈ touchedKeys m data fs then
        (if ((entryAt st k).filter (fun e => !(e == id))).length = 0 then none
         else some (.sids ((entryAt st k).filter (fun e => !(e == id)))))
      else sget st k := by
  induction fs generalizing st with
  | nil => simp [touchedKeys]
  | cons f rest ih =>
    rw [List.foldl_cons, ih]
    by_cases hk : k = getIndexKey m f (alookup f data)
    · have hE : entryAt (rfiStep m id data st f) k =
          (entryAt st k).filter (fun e => !(e == id)) := by
        rw [entryAt, sget_rfiStep, if_pos hk]
        by_cases hlen : ((entryAt st k).filter (fun e => !(e == id))).length = 0
        · rw [if_pos hlen, List.length_eq_zero.1 hlen]
        · rw [if_neg hlen]
      have hcons : k ∈ touchedKeys m data (f :: rest) :=
        (mem_touchedKeys_cons m data k f rest).2 (Or.inl hk)
      by_cases hmem : k ∈ touchedKeys m data rest
      · rw [if_pos hmem, if_pos hcons, hE, filter_ne_idem]
      · rw [if_neg hmem, if_pos hcons, sget_rfiStep, if_pos hk]
    · have hE : entryAt (rfiStep m id data st f) k = entryAt st k := by
        rw [entryAt, sget_rfiStep, if_neg hk]
        rfl
      by_cases hmem : k ∈ touchedKeys m data rest
      · have hcons : k ∈ touchedKeys m data (f :: rest) :=
          (mem_touchedKeys_cons m data k f rest).2 (Or.inr hmem)
        rw [if_pos hmem, if_pos hcons, hE]
      · have hcons : k ∉ touchedKeys m data (f :: rest) := by
          intro h
          rcases (mem_touchedKeys_cons m data k f rest).1 h with h1 | h1
          · exact hk h1
          · exact hmem h1
        rw [if_neg hmem, if_neg hcons, sget_rfiStep, if_neg hk]

theorem sget_removeFromIndexes (m : ModelDef) (id : String) (data : Rec) (st : Store)
    (k : String) :
    sget (removeFromIndexes m id data st) k =
      if k ∈ touchedKeys m data m.indexes then
        (if ((entryAt st k).filter (fun e => !(e == id))).length = 0 then none
         else some (.sids ((entryAt st k).filter (fun e => !(e == id)))))
      else sget st k :=
  sget_foldl_rfiStep m id data m.indexes st k

theorem log_uiStep_mono (m : ModelDef) (id : String) (data : Rec) (st : Store) (f : String)
    (op : WOp) (h : op ∈ st.log) : op ∈ (uiStep m id data st f).log := by
  unfold uiStep
  by_cases hmem : id ∈ entryAt st (getIndexKey m f (alookup f data))
  · rw [if_pos hmem]; exact h
  · rw [if_neg hmem, log_sput]
    exact List.mem_append_left _ h

theorem log_foldl_uiStep_mono (m : ModelDef) (id : String) (data : Rec) (fs : List String)
    (st : Store) (op : WOp) (h : op ∈ st.log) :
    op ∈ (fs.foldl (uiStep m id data) st).log := by
  induction fs generalizing st with
  | nil => exact h
  | cons f rest ih =>
    rw [List.foldl_cons]
    exact ih _ (log_uiStep_mono m id data st f op h)

theorem log_rfiStep_mono (m : ModelDef) (id : String) (data : Rec) (st : Store) (f : String)
    (op : WOp) (h : op ∈ st.log) : op ∈ (rfiStep m id data st f).log := by
  unfold rfiStep
  by_cases hlen : 0 < ((entryAt st (getIndexKey m f (alookup f data))).filter
      (fun e => !(e == id))).length
  · rw [if_pos hlen, log_sput]
    exact List.mem_append_left _ h
  · rw [if_neg hlen, log_sdel]
    exact List.mem_append_left _ h

theorem log_foldl_rfiStep_mono (m : ModelDef) (id : String) (data : Rec) (fs : List String)
    (st : Store) (op : WOp) (h : op ∈ st.log) :
    op ∈ (fs.foldl (rfiStep m id data) st).log := by
  induction fs generalizing st with
  | nil => exact h
  | cons f rest ih =>
    rw [List.foldl_cons]
    exact ih _ (log_rfiStep_mono m id data st f op h)

/-- Every field a removeFromIndexes pass visits gets a write (a put or a
delete) on the index key for that field and the record's value of it. -/
theorem log_foldl_rfiStep_covers (m : ModelDef) (id : String) (data : Rec) (fs : List String)
    (st : Store) (f : String) (hf : f ∈ fs) :
    ∃ op ∈ (fs.foldl (rfiStep m id data) st).log,
      wopKey op = getIndexKey m f (alookup f data) := by
  induction fs generalizing st with
  | nil => cases hf
  | cons g rest ih =>
    rw [List.foldl_cons]
    rcases List.mem_cons.1 hf with hfg | hfr
    · subst hfg
      have hop : ∃ op ∈ (rfiStep m id data st f).log,
          wopKey op = getIndexKey m f (alookup f data) := by
        unfold rfiStep
        by_cases hlen : 0 < ((entryAt st (getIndexKey m f (alookup f data))).filter
            (fun e => !(e == id))).length
        · rw [if_pos hlen, log_sput]
          exact ⟨.putW (getIndexKey m f (alookup f data)),
            List.mem_append_right _ (List.mem_singleton.2 rfl), rfl⟩
        · rw [if_neg hlen, log_sdel]
          exact ⟨.delW (getIndexKey m f (alookup f data)),
            List.mem_append_right _ (List.mem_singleton.2 rfl), rfl⟩
      obtain ⟨op, hmem, hkey⟩ := hop
      exact ⟨op, log_foldl_rfiStep_mono m id data rest _ op hmem, hkey⟩
    · exact ih _ hfr

/-- Splitting a character list at the first colon is unambiguous when the
part before the colon is colon-free. -/
theorem colon_split (xs : List Char) (as : List Char) :
    ∀ (ys bs : List Char), ':' ∉ xs → ':' ∉ ys →
      xs ++ ':' :: as = ys ++ ':' :: bs → xs = ys ∧ as = bs := by
  induction xs with
  | nil =>
    intro ys bs _ hy h
    cases ys with
    | nil =>
      simp only [List.nil_append] at h
      exact ⟨rfl, (List.cons.injEq _ _ _ _ ▸ h).2⟩
    | cons c cs =>
      simp only [List.nil_append, List.cons_append, List.cons.injEq] at h
      exact absurd (h.1 ▸ List.mem_cons_self c cs) (by
        intro hc
        exact hy (h.1 ▸ List.mem_cons_self c cs))
  | cons x xs ih =>
    intro ys bs hx hy h
    cases ys with
    | nil =>
      simp only [List.cons_append, List.nil_append, List.cons.injEq] at h
      exact absurd (h.1 ▸ List.mem_cons_self x xs) (by
        intro hc
        exact hx (h.1 ▸ List.mem_cons_self x xs))
    | cons c cs =>
      simp only [List.cons_append, List.cons.injEq] at h
      obtain ⟨hxc, hrest⟩ := h
      have hx2 : ':' ∉ xs := fun hc => hx (List.mem_cons_of_mem x hc)
      have hy2 : ':' ∉ cs := fun hc => hy (List.mem_cons_of_mem c hc)
      obtain ⟨h1, h2⟩ := ih cs bs hx2 hy2 hrest
      exact ⟨by rw [hxc, h1], h2⟩

/-- The hygiene of a model configuration: the table name is neither the
word index nor colon-containing, and indexed field names are colon-free.
Every real configuration (such as the events table of the example worker)
satisfies this; without it the flat keyspace of the source can alias a
record key with an index key. -/
def hygB (m : ModelDef) : Bool :=
  !(m.tableName == "index") && m.tableName.data.all (fun c => !(c == ':')) &&
    m.indexes.all (fun f => f.data.all (fun c => !(c == ':')))

theorem hygB_tableName_ne (m : ModelDef) (h : hygB m = true) : m.tableName ≠ "index" := by
  simp only [hygB, Bool.and_eq_true, Bool.not_eq_true', beq_eq_false_iff_ne, ne_eq] at h
  exact h.1.1

theorem hygB_tableName_nc (m : ModelDef) (h : hygB m = true) : ':' ∉ m.tableName.data := by
  simp only [hygB, Bool.and_eq_true, List.all_eq_true, Bool.not_eq_true', beq_eq_false_iff_ne,
    ne_eq] at h
  intro hc
  exact h.1.2 ':' hc rfl

theorem hygB_index_nc (m : ModelDef) (h : hygB m = true) (f : String) (hf : f ∈ m.indexes) :
    ':' ∉ f.data := by
  simp only [hygB, Bool.and_eq_true, List.all_eq_true, Bool.not_eq_true', beq_eq_false_iff_ne,
    ne_eq] at h
  intro hc
  exact h.2 f hf ':' hc rfl

theorem string_data_colon : (":" : String).data = [':'] := rfl

theorem getRecordKey_data (m : ModelDef) (id : String) :
    (getRecordKey m id).data = m.tableName.data ++ ':' :: id.data := by
  simp only [getRecordKey, String.data_append, string_data_colon, List.append_assoc,
    List.singleton_append]

theorem idxKeyS_data (m : ModelDef) (f s : String) :
    (idxKeyS m f s).data =
      'i' :: 'n' :: 'd' :: 'e' :: 'x' :: ':' ::
        (m.tableName.data ++ ':' :: (f.data ++ ':' :: s.data)) := by
  simp only [idxKeyS, String.data_append, string_data_colon, List.append_assoc,
    List.singleton_append]
  rfl

theorem getRecordKey_inj (m : ModelDef) (a b : String)
    (h : getRecordKey m a = getRecordKey m b) : a = b := by
  have hd := congrArg String.data h
  rw [getRecordKey_data, getRecordKey_data] at hd
  have := List.append_cancel_left hd
  exact String.ext (by injection this)

theorem getRecordKey_ne_idxKeyS (m : ModelDef) (hne : m.tableName ≠ "index")
    (hnc : ':' ∉ m.tableName.data) (id f s : String) :
    getRecordKey m id ≠ idxKeyS m f s := by
  intro h
  have hd := congrArg String.data h
  rw [getRecordKey_data, idxKeyS_data] at hd
  have hsplit := colon_split m.tableName.data id.data ['i', 'n', 'd', 'e', 'x']
    (m.tableName.data ++ ':' :: (f.data ++ ':' :: s.data)) hnc (by decide) hd
  exact hne (String.ext (show m.tableName.data = ("index" : String).data from hsplit.1))

theorem idxKeyS_inj (m : ModelDef) (f1 s1 f2 s2 : String)
    (h1 : ':' ∉ f1.data) (h2 : ':' ∉ f2.data)
    (h : idxKeyS m f1 s1 = idxKeyS m f2 s2) : f1 = f2 ∧ s1 = s2 := by
  have hd := congrArg String.data h
  rw [idxKeyS_data, idxKeyS_data] at hd
  repeat injection hd with _ hd
  have hd2 := List.append_cancel_left hd
  injection hd2 with _ hd3
  obtain ⟨ha, hb⟩ := colon_split f1.data s1.data f2.data s2.data h1 h2 hd3
  exact ⟨String.ext ha, String.ext hb⟩

/-- A key touched by an index pass is an index key; with hygiene it can
never be a record key. -/
theorem getRecordKey_not_mem_touchedKeys (m : ModelDef) (h : hygB m = true)
    (id : String) (data : Rec) (fs : List String) :
    getRecordKey m id ∉ touchedKeys m data fs := by
  intro hmem
  simp only [touchedKeys, List.mem_map] at hmem
  obtain ⟨f, _, hf⟩ := hmem
  exact getRecordKey_ne_idxKeyS m (hygB_tableName_ne m h) (hygB_tableName_nc m h)
    id f (indexValueStr (alookup f data)) hf.symm

/-- Membership of an index key among touched keys determines the field and
the normalised value, given colon-free indexed field names. -/
theorem idxKeyS_mem_touchedKeys (m : ModelDef) (h : hygB m = true) (f s : String)
    (hf : f ∈ m.indexes) (data : Rec) :
    idxKeyS m f s ∈ touchedKeys m data m.indexes ↔
      s = indexValueStr (alookup f data) := by
  constructor
  · intro hmem
    simp only [touchedKeys, List.mem_map] at hmem
    obtain ⟨g, hg, hkey⟩ := hmem
    obtain ⟨hfg, hs⟩ := idxKeyS_inj m g (indexValueStr (alookup g data)) f s
      (hygB_index_nc m h g hg) (hygB_index_nc m h f hf) hkey
    rw [hs.symm, hfg]
  · intro hs
    simp only [touchedKeys, List.mem_map]
    exact ⟨f, hf, by rw [hs, getIndexKey]⟩

theorem alookup_mem {α : Type} (k : String) (l : List (String × α)) (v : α)
    (h : alookup k l = some v) : (k, v) ∈ l := by
  induction l with
  | nil => cases h
  | cons p rest ih =>
    by_cases h1 : p.1 = k
    · rw [alookup, if_pos h1] at h
      injection h with h
      have hp : p = (k, v) := by
        obtain ⟨a, b⟩ := p
        simp only at h1 h
        rw [h1, h]
      rw [← hp]
      exact List.mem_cons_self p rest
    · rw [alookup, if_neg h1] at h
      exact List.mem_cons_of_mem p (ih h)

theorem alookup_eq_of_mem_nodup {α : Type} (k : String) (l : List (String × α)) (v : α)
    (hmem : (k, v) ∈ l) (hnd : (l.map Prod.fst).Nodup) : alookup k l = some v := by
  induction l with
  | nil => cases hmem
  | cons p rest ih =>
    rw [List.map_cons, List.nodup_cons] at hnd
    rcases List.mem_cons.1 hmem with hp | hp
    · rw [← hp, alookup, if_pos rfl]
    · have h1 : ¬ p.1 = k := by
        intro h
        exact hnd.1 (h ▸ (List.mem_map.2 ⟨(k, v), hp, rfl⟩))
      rw [alookup, if_neg h1]
      exact ih hp hnd.2

theorem alookup_map_val {α β : Type} (g : String → α → β) (k : String)
    (l : List (String × α)) :
    alookup k (l.map (fun p => (p.1, g p.1 p.2))) = (alookup k l).map (g k) := by
  induction l with
  | nil => rfl
  | cons p rest ih =>
    by_cases h1 : p.1 = k
    · subst h1
      simp [alookup]
    · simp only [List.map_cons, alookup, if_neg h1, ih]

theorem alookup_serializeRec (k : String) (data : Rec) :
    alookup k (serializeRec data) = (alookup k data).map serializeVal :=
  alookup_map_val (fun _ v => serializeVal v) k data

theorem alookup_deserializeRec (schema : Schema) (k : String) (data : Rec) :
    alookup k (deserializeRec schema data) = (alookup k data).map (deserializeVal schema k) :=
  alookup_map_val (deserializeVal schema) k data

/-- A successful whole-schema validation yields, for every schema entry, a
present and field-valid value. -/
theorem validateSchema_ok_mem (schema : Schema) (data : Rec)
    (h : validateSchema schema data = .ok ()) :
    ∀ p ∈ schema, ∃ v, alookup p.1 data = some v ∧ validateField v p.2 p.1 = .ok () := by
  induction schema with
  | nil => intro p hp; cases hp
  | cons q rest ih =>
    intro p hp
    rw [validateSchema] at h
    split at h
    · simp at h
    · rename_i v hq
      split at h
      · simp at h
      · rename_i hv
        rcases List.mem_cons.1 hp with hpq | hpr
        · subst hpq
          exact ⟨v, hq, hv⟩
        · exact ih h p hpr

theorem validateField_date (v : Value) (f : String)
    (h : validateField v .date f = .ok ()) : ∃ d, v = .vdate d ∧ d.validB = true := by
  cases v with
  | vdate d =>
    refine ⟨d, rfl, ?_⟩
    by_cases hd : d.validB = true
    · exact hd
    · rw [validateField] at h
      simp only [hd] at h
      rw [if_neg (by simp [hd])] at h
      cases h
  | vstr s => cases h
  | vnum n => cases h
  | vnan => cases h
  | vbool b => cases h
  | vnull => cases h
  | vobj o => cases h
  | varr a => cases h

/-- Serializing then deserializing a validated record preserves the
normalised index-value string of every field (whether or not the field is
in the schema): the only value the codec rewrites is a Date, whose ISO
string is also its index normalisation (so even a Date left as its ISO
string under a non-date field keeps its index key), and on schema date
fields the round trip restores the Date exactly. -/
theorem indexValueStr_deser_ser (schema : Schema) (data : Rec)
    (h : validateSchema schema data = .ok ()) (f : String) :
    indexValueStr (alookup f (deserializeRec schema (serializeRec data))) =
      indexValueStr (alookup f data) := by
  rw [alookup_deserializeRec, alookup_serializeRec]
  rcases hv : alookup f data with _ | v
  · rfl
  · rw [show Option.map (deserializeVal schema f) (Option.map serializeVal (some v)) =
      some (deserializeVal schema f (serializeVal v)) from rfl]
    rcases hft : alookup f schema with _ | ft
    · cases v <;> simp [deserializeVal, serializeVal, indexValueStr, jsString, hft]
    · by_cases hdate : ft = .date
      · subst hdate
        have hmem := alookup_mem f schema .date hft
        obtain ⟨v0, hv0, hval⟩ := validateSchema_ok_mem schema data h (f, .date) hmem
        rw [hv] at hv0
        injection hv0 with hv0
        subst hv0
        obtain ⟨d, hd, hdv⟩ := validateField_date v f hval
        subst hd
        simp only [serializeVal, deserializeVal, hft]
        rw [parseIsoD_isoString d hdv]
      · cases ft <;> first
          | exact absurd rfl hdate
          | (cases v <;> simp [deserializeVal, serializeVal, indexValueStr, jsString, hft])

theorem entryAt_updateIndexes (m : ModelDef) (id : String) (data : Rec) (st : Store)
    (k : String) :
    entryAt (updateIndexes m id data st) k =
      if k ∈ touchedKeys m data m.indexes then addOnce (entryAt st k) id
      else entryAt st k := by
  rw [entryAt, sget_updateIndexes]
  by_cases ht : k ∈ touchedKeys m data m.indexes
  · rw [if_pos ht, if_pos ht]
  · rw [if_neg ht, if_neg ht, entryAt]

theorem entryAt_removeFromIndexes (m : ModelDef) (id : String) (data : Rec) (st : Store)
    (k : String) :
    entryAt (removeFromIndexes m id data st) k =
      if k ∈ touchedKeys m data m.indexes then (entryAt st k).filter (fun e => !(e == id))
      else entryAt st k := by
  rw [entryAt, sget_removeFromIndexes]
  by_cases ht : k ∈ touchedKeys m data m.indexes
  · rw [if_pos ht, if_pos ht]
    by_cases hlen : ((entryAt st k).filter (fun e => !(e == id))).length = 0
    · rw [if_pos hlen, List.length_eq_zero.1 hlen]
    · rw [if_neg hlen]
  · rw [if_neg ht, if_neg ht, entryAt]

theorem entryAt_sput_ne (st : Store) (k k2 : String) (v : Stored) (h : k ≠ k2) :
    entryAt (sput st k v) k2 = entryAt st k2 := by
  rw [entryAt, sget_sput, if_neg h, entryAt]

theorem entryAt_sdel_ne (st : Store) (k k2 : String) (h : k ≠ k2) :
    entryAt (sdel st k) k2 = entryAt st k2 := by
  rw [entryAt, sget_sdel, if_neg h, entryAt]

theorem mem_filter_ne (l : List String) (id x : String) :
    x ∈ l.filter (fun e => !(e == id)) ↔ x ∈ l ∧ x ≠ id := by
  simp [List.mem_filter]

theorem addOnce_ne_nil (l : List String) (id : String) : addOnce l id ≠ [] := by
  rw [addOnce]
  by_cases h : id ∈ l
  · rw [if_pos h]
    intro hnil
    rw [hnil] at h
    cases h
  · rw [if_neg h]
    simp

theorem alookup_append {α : Type} (f : String) (A B : List (String × α)) :
    alookup f (A ++ B) =
      match alookup f A with
      | some v => some v
      | none => alookup f B := by
  induction A with
  | nil => rfl
  | cons p rest ih =>
    by_cases h1 : p.1 = f
    · simp only [List.cons_append, alookup, if_pos h1]
    · simp only [List.cons_append, alookup, if_neg h1]
      exact ih

theorem alookup_filter_keyfalse {α : Type} (f : String) (l : List (String × α))
    (p : String × α → Bool) (hp : ∀ v, p (f, v) = false) :
    alookup f (l.filter p) = none := by
  induction l with
  | nil => rfl
  | cons q rest ih =>
    rcases hq : p q with _ | _
    · rw [List.filter_cons, hq, if_neg Bool.false_ne_true]
      exact ih
    · rw [List.filter_cons, hq, if_pos rfl]
      have h1 : ¬ q.1 = f := by
        intro h
        have hfalse : p q = false := by
          obtain ⟨a, b⟩ := q
          simp only at h
          rw [h]
          exact hp b
        rw [hfalse] at hq
        cases hq
      rw [alookup, if_neg h1]
      exact ih

theorem alookup_filter_keytrue {α : Type} (f : String) (l : List (String × α))
    (p : String × α → Bool) (hp : ∀ v, p (f, v) = true) :
    alookup f (l.filter p) = alookup f l := by
  induction l with
  | nil => rfl
  | cons q rest ih =>
    by_cases h1 : q.1 = f
    · have hq : p q = true := by
        obtain ⟨a, b⟩ := q
        simp only at h1
        rw [h1]
        exact hp b
      rw [List.filter_cons, hq, if_pos rfl]
      rw [alookup, if_pos h1, alookup, if_pos h1]
    · rcases hq : p q with _ | _
      · rw [List.filter_cons, hq, if_neg Bool.false_ne_true]
        rw [ih, alookup, if_neg h1]
      · rw [List.filter_cons, hq, if_pos rfl]
        rw [alookup, if_neg h1, ih, alookup, if_neg h1]

theorem alookup_mergeMap (existing updates : Rec) (f : String) :
    alookup f (existing.map (fun p => (p.1, match alookup p.1 updates with
      | some w => w
      | none => p.2))) =
      match alookup f existing with
      | some v =>
        some (match alookup f updates with
          | some w => w
          | none => v)
      | none => none := by
  induction existing with
  | nil => rfl
  | cons p rest ih =>
    by_cases h1 : p.1 = f
    · simp only [List.map_cons, alookup, if_pos h1]
      rw [h1]
    · simp only [List.map_cons, alookup, if_neg h1]
      exact ih

/-- Field lookup through the spread merge: a field present in the partial
update reads its new value, anything else reads the existing value. -/
theorem alookup_mergeRec (existing updates : Rec) (f : String) :
    alookup f (mergeRec existing updates) =
      match alookup f updates with
      | some w => some w
      | none => alookup f existing := by
  rw [mergeRec, alookup_append, alookup_mergeMap]
  rcases he : alookup f existing with _ | v
  · have hkf : hasKey existing f = false := by rw [hasKey, he]; rfl
    have hall : ∀ v : Value, (fun p : String × Value => !(hasKey existing p.1)) (f, v) = true := by
      intro v
      simp only [hkf, Bool.not_false]
    rw [alookup_filter_keytrue f updates _ hall]
    rcases hu : alookup f updates with _ | w <;> rfl
  · rcases hu : alookup f updates with _ | w <;> simp [hu, he]

/-- Part one of the index invariant: record keys hold record objects (never
index arrays). -/
def RecordsWF (m : ModelDef) (st : Store) : Prop :=
  ∀ id sv, sget st (getRecordKey m id) = some sv → ∃ sr, sv = Stored.srec sr

/-- Part two of the index invariant, the property of claim C4: for every
declared indexed field and every normalised value string, the index entry
for that field and string holds exactly the identifiers of stored records
whose current value of the field normalises to that string: present for
the record's current value, absent from every stale one. -/
def IndexConsistent (m : ModelDef) (st : Store) : Prop :=
  ∀ f, f ∈ m.indexes → ∀ id s,
    (id ∈ entryAt st (idxKeyS m f s) ↔
      ∃ sr, sget st (getRecordKey m id) = some (Stored.srec sr) ∧
        indexValueStr (alookup f (deserializeRec m.schema sr)) = s)

def Inv (m : ModelDef) (st : Store) : Prop := RecordsWF m st ∧ IndexConsistent m st

theorem inv_emptyStore (m : ModelDef) : Inv m emptyStore := by
  constructor
  · intro id sv hsv
    cases hsv
  · intro f hf id s
    constructor
    · intro h
      cases h
    · rintro ⟨sr, hsr, _⟩
      cases hsr

/-- On a store whose record keys are well-formed, a successful find names a
stored record object whose deserialization it returns. -/
theorem find_srec (m : ModelDef) (st : Store) (id : String) (hWF : RecordsWF m st)
    (ex : Rec) (h : find m id st = some ex) :
    ∃ sr, sget st (getRecordKey m id) = some (.srec sr) ∧
      ex = deserializeRec m.schema sr := by
  rw [find] at h
  split at h
  · cases h
  · rename_i r heq
    injection h with h
    exact ⟨r, heq, h.symm⟩
  · rename_i l heq
    obtain ⟨sr, hsr⟩ := hWF id _ heq
    cases hsr

/-- No reachable store maps an index entry to the empty identifier list
(the removal path deletes an emptied entry outright and the add path
always appends). -/
def noEmptySids (st : Store) : Prop := ∀ k, sget st k ≠ some (.sids [])

theorem noEmptySids_updateIndexes (m : ModelDef) (id : String) (data : Rec) (st : Store)
    (h : noEmptySids st) : noEmptySids (updateIndexes m id data st) := by
  intro k
  rw [sget_updateIndexes]
  by_cases ht : k ∈ touchedKeys m data m.indexes
  · rw [if_pos ht]
    intro hcon
    injection hcon with hcon
    injection hcon with hcon
    exact addOnce_ne_nil _ _ hcon
  · rw [if_neg ht]
    exact h k

theorem noEmptySids_removeFromIndexes (m : ModelDef) (id : String) (data : Rec) (st : Store)
    (h : noEmptySids st) : noEmptySids (removeFromIndexes m id data st) := by
  intro k
  rw [sget_removeFromIndexes]
  by_cases ht : k ∈ touchedKeys m data m.indexes
  · rw [if_pos ht]
    by_cases hlen : ((entryAt st k).filter (fun e => !(e == id))).length = 0
    · rw [if_pos hlen]
      intro hcon
      cases hcon
    · rw [if_neg hlen]
      intro hcon
      injection hcon with hcon
      injection hcon with hcon
      exact hlen (by rw [hcon]; rfl)
  · rw [if_neg ht]
    exact h k

theorem noEmptySids_sput_srec (st : Store) (k : String) (r : Rec) (h : noEmptySids st) :
    noEmptySids (sput st k (.srec r)) := by
  intro k2
  rw [sget_sput]
  by_cases hk : k = k2
  · rw [if_pos hk]
    intro hcon
    injection hcon with hcon
    cases hcon
  · rw [if_neg hk]
    exact h k2

theorem noEmptySids_sdel (st : Store) (k : String) (h : noEmptySids st) :
    noEmptySids (sdel st k) := by
  intro k2
  rw [sget_sdel]
  by_cases hk : k = k2
  · rw [if_pos hk]
    intro hcon
    cases hcon
  · rw [if_neg hk]
    exact h k2

theorem noEmptySids_create (m : ModelDef) (data : Rec) (st : Store) (h : noEmptySids st) :
    noEmptySids (create m data st).1 := by
  rw [create]
  split
  · exact h
  · split
    · exact h
    · split
      · exact h
      · exact noEmptySids_updateIndexes m _ data _ (noEmptySids_sput_srec st _ _ h)

theorem noEmptySids_update (m : ModelDef) (id : String) (updates : Rec) (st : Store)
    (h : noEmptySids st) : noEmptySids (update m id updates st).1 := by
  rw [update]
  split
  · exact h
  · split
    · exact h
    · rename_i o existing hfind u hval
      by_cases hch : anyIndexChangedB m updates existing = true
      · rw [if_pos hch]
        exact noEmptySids_updateIndexes m _ _ _
          (noEmptySids_sput_srec _ _ _ (noEmptySids_removeFromIndexes m _ _ _ h))
      · rw [if_neg hch]
        exact noEmptySids_sput_srec _ _ _ h

theorem noEmptySids_deleteRec (m : ModelDef) (id : String) (st : Store)
    (h : noEmptySids st) : noEmptySids (deleteRec m id st).1 := by
  rw [deleteRec]
  split
  · exact h
  · exact noEmptySids_sdel _ _ (noEmptySids_removeFromIndexes m _ _ _ h)

theorem reached_noEmptySids (m : ModelDef) (st : Store) (h : Reached m st) :
    noEmptySids st := by
  induction h with
  | empty => intro k hcon; cases hcon
  | createS st data _ ih => exact noEmptySids_create m data st ih
  | updateS st id updates _ ih => exact noEmptySids_update m id updates st ih
  | deleteS st id _ ih => exact noEmptySids_deleteRec m id st ih

theorem exists_srec_eq (x : Option Stored) (R : Rec) (hx : x = some (.srec R))
    (P : Rec → Prop) :
    (∃ sr0, x = some (.srec sr0) ∧ P sr0) ↔ P R := by
  constructor
  · rintro ⟨sr0, h0, hp⟩
    rw [hx] at h0
    injection h0 with h0
    injection h0 with h0
    rw [h0]
    exact hp
  · intro hp
    exact ⟨R, hx, hp⟩

theorem exists_rec_eq (st : Store) (key : String) (sr : Rec)
    (hsr : sget st key = some (.srec sr)) (P : Rec → Prop) :
    (∃ sr0, sget st key = some (.srec sr0) ∧ P sr0) ↔ P sr := by
  constructor
  · rintro ⟨sr0, h0, hp⟩
    rw [hsr] at h0
    injection h0 with h0
    injection h0 with h0
    rw [h0]
    exact hp
  · intro hp
    exact ⟨sr, hsr, hp⟩

theorem inv_create_success (m : ModelDef) (hg : hygB m = true) (data : Rec) (st : Store)
    (hInv : Inv m st) (hval : validateSchema m.schema data = .ok ())
    (hex : sget st (getRecordKey m (indexValueStr (alookup "id" data))) = none) :
    Inv m (updateIndexes m (indexValueStr (alookup "id" data)) data
      (sput st (getRecordKey m (indexValueStr (alookup "id" data)))
        (.srec (serializeRec data)))) := by
  have hner : ∀ f s, getRecordKey m (indexValueStr (alookup "id" data)) ≠ idxKeyS m f s :=
    fun f s => getRecordKey_ne_idxKeyS m (hygB_tableName_ne m hg) (hygB_tableName_nc m hg) _ f s
  constructor
  · intro id2 sv hsv
    rw [sget_updateIndexes,
      if_neg (getRecordKey_not_mem_touchedKeys m hg id2 data m.indexes), sget_sput] at hsv
    by_cases hkk : getRecordKey m (indexValueStr (alookup "id" data)) = getRecordKey m id2
    · rw [if_pos hkk] at hsv
      injection hsv with hsv
      exact ⟨serializeRec data, hsv.symm⟩
    · rw [if_neg hkk] at hsv
      exact hInv.1 id2 sv hsv
  · intro f hf id2 s
    have hrec2 : sget (updateIndexes m (indexValueStr (alookup "id" data)) data
        (sput st (getRecordKey m (indexValueStr (alookup "id" data)))
          (.srec (serializeRec data)))) (getRecordKey m id2) =
        if getRecordKey m (indexValueStr (alookup "id" data)) = getRecordKey m id2
        then some (.srec (serializeRec data)) else sget st (getRecordKey m id2) := by
      rw [sget_updateIndexes,
        if_neg (getRecordKey_not_mem_touchedKeys m hg id2 data m.indexes), sget_sput]
    rw [entryAt_updateIndexes, entryAt_sput_ne st _ _ _ (hner f s), hrec2]
    by_cases hs : s = indexValueStr (alookup f data)
    · rw [if_pos ((idxKeyS_mem_touchedKeys m hg f s hf data).2 hs), mem_addOnce]
      by_cases hid : id2 = indexValueStr (alookup "id" data)
      · subst hid
        rw [if_pos rfl]
        constructor
        · intro _
          refine ⟨serializeRec data, rfl, ?_⟩
          rw [indexValueStr_deser_ser m.schema data hval f]
          exact hs.symm
        · intro _
          exact Or.inr rfl
      · have hkk : getRecordKey m (indexValueStr (alookup "id" data)) ≠ getRecordKey m id2 :=
          fun hc => hid (getRecordKey_inj m _ _ hc).symm
        rw [if_neg hkk, or_iff_left hid]
        exact hInv.2 f hf id2 s
    · rw [if_neg (fun hc => hs ((idxKeyS_mem_touchedKeys m hg f s hf data).1 hc))]
      by_cases hid : id2 = indexValueStr (alookup "id" data)
      · subst hid
        rw [if_pos rfl]
        constructor
        · intro hmem
          obtain ⟨sr0, h0, _⟩ := (hInv.2 f hf _ s).1 hmem
          rw [hex] at h0
          cases h0
        · rintro ⟨sr0, h0, hp⟩
          injection h0 with h0
          injection h0 with h0
          rw [← h0, indexValueStr_deser_ser m.schema data hval f] at hp
          exact (hs hp.symm).elim
      · have hkk : getRecordKey m (indexValueStr (alookup "id" data)) ≠ getRecordKey m id2 :=
          fun hc => hid (getRecordKey_inj m _ _ hc).symm
        rw [if_neg hkk]
        exact hInv.2 f hf id2 s

/-- Strict inequality can only come out false on structurally equal
values: the false cases of jsStrictNeB are equal primitives. -/
theorem jsStrictNeB_false_eq (a b : Value) (h : jsStrictNeB a b = false) : a = b := by
  cases a <;> cases b <;> simp_all [jsStrictNeB]

theorem jsStrictNeO_false_eq (x y : Option Value) (h : jsStrictNeO x y = false) : x = y := by
  cases x with
  | none =>
    cases y with
    | none => rfl
    | some b => cases h
  | some a =>
    cases y with
    | none => cases h
    | some b => rw [jsStrictNeB_false_eq a b h]

/-- An unchanged detection outcome means every declared indexed field reads
the same value from the merged record as from the existing one. -/
theorem anyIndexChangedB_false_same (m : ModelDef) (updates existing : Rec)
    (hch : anyIndexChangedB m updates existing = false) :
    ∀ f ∈ m.indexes, alookup f (mergeRec existing updates) = alookup f existing := by
  intro f hf
  have h1 : ¬ (anyIndexChangedB m updates existing = true) := by
    rw [hch]
    simp
  rw [anyIndexChangedB, List.any_eq_true] at h1
  push_neg at h1
  have h2 := h1 f hf
  rw [alookup_mergeRec]
  rcases hu : alookup f updates with _ | w
  · rfl
  · have hkey : hasKey updates f = true := by rw [hasKey, hu]; rfl
    rcases hne : jsStrictNeO (alookup f updates) (alookup f existing) with _ | _
    · have heq : alookup f updates = alookup f existing :=
        jsStrictNeO_false_eq (alookup f updates) (alookup f existing) hne
      show some w = alookup f existing
      rw [← heq, hu]
    · exfalso
      apply h2
      rw [hkey, hne]
      rfl

theorem inv_update_changed (m : ModelDef) (hg : hygB m = true) (id : String)
    (updates existing sr : Rec) (st : Store) (hInv : Inv m st)
    (hsr : sget st (getRecordKey m id) = some (.srec sr))
    (hexd : existing = deserializeRec m.schema sr)
    (hval : validateSchema m.schema (mergeRec existing updates) = .ok ()) :
    Inv m (updateIndexes m id (mergeRec existing updates)
      (sput (removeFromIndexes m id existing st) (getRecordKey m id)
        (.srec (serializeRec (mergeRec existing updates))))) := by
  have hner : ∀ f s, getRecordKey m id ≠ idxKeyS m f s :=
    fun f s => getRecordKey_ne_idxKeyS m (hygB_tableName_ne m hg) (hygB_tableName_nc m hg) id f s
  have hner2 : ∀ id2 f s, getRecordKey m id2 ≠ idxKeyS m f s :=
    fun id2 f s => getRecordKey_ne_idxKeyS m (hygB_tableName_ne m hg) (hygB_tableName_nc m hg)
      id2 f s
  constructor
  · intro id2 sv hsv
    rw [sget_updateIndexes,
      if_neg (getRecordKey_not_mem_touchedKeys m hg id2 (mergeRec existing updates) m.indexes),
      sget_sput] at hsv
    by_cases hkk : getRecordKey m id = getRecordKey m id2
    · rw [if_pos hkk] at hsv
      injection hsv with hsv
      exact ⟨serializeRec (mergeRec existing updates), hsv.symm⟩
    · rw [if_neg hkk, sget_removeFromIndexes,
        if_neg (getRecordKey_not_mem_touchedKeys m hg id2 existing m.indexes)] at hsv
      exact hInv.1 id2 sv hsv
  · intro f hf id2 s
    have hE0id : id ∈ entryAt st (idxKeyS m f s) ↔ indexValueStr (alookup f existing) = s := by
      rw [hInv.2 f hf id s, exists_rec_eq st _ sr hsr, ← hexd]
    have hrec2 : sget (updateIndexes m id (mergeRec existing updates)
        (sput (removeFromIndexes m id existing st) (getRecordKey m id)
          (.srec (serializeRec (mergeRec existing updates))))) (getRecordKey m id2) =
        if getRecordKey m id = getRecordKey m id2
        then some (.srec (serializeRec (mergeRec existing updates)))
        else sget st (getRecordKey m id2) := by
      rw [sget_updateIndexes,
        if_neg (getRecordKey_not_mem_touchedKeys m hg id2 (mergeRec existing updates) m.indexes),
        sget_sput, sget_removeFromIndexes,
        if_neg (getRecordKey_not_mem_touchedKeys m hg id2 existing m.indexes)]
    rw [entryAt_updateIndexes, entryAt_sput_ne _ _ _ _ (hner f s), entryAt_removeFromIndexes,
      hrec2]
    have hdeser : indexValueStr (alookup f (deserializeRec m.schema
        (serializeRec (mergeRec existing updates)))) =
        indexValueStr (alookup f (mergeRec existing updates)) :=
      indexValueStr_deser_ser m.schema (mergeRec existing updates) hval f
    by_cases hid : id2 = id
    · subst hid
      rw [if_pos rfl, exists_srec_eq _ _ rfl, hdeser]
      by_cases hsU : s = indexValueStr (alookup f (mergeRec existing updates))
      · rw [if_pos ((idxKeyS_mem_touchedKeys m hg f s hf (mergeRec existing updates)).2 hsU)]
        constructor
        · intro _
          exact hsU.symm
        · intro _
          exact (mem_addOnce _ _ _).2 (Or.inr rfl)
      · rw [if_neg (fun hc => hsU
          ((idxKeyS_mem_touchedKeys m hg f s hf (mergeRec existing updates)).1 hc))]
        by_cases hsE : s = indexValueStr (alookup f existing)
        · rw [if_pos ((idxKeyS_mem_touchedKeys m hg f s hf existing).2 hsE)]
          constructor
          · intro hmem
            exact (((mem_filter_ne _ _ _).1 hmem).2 rfl).elim
          · intro hp
            exact (hsU hp.symm).elim
        · rw [if_neg (fun hc => hsE ((idxKeyS_mem_touchedKeys m hg f s hf existing).1 hc))]
          constructor
          · intro hmem
            exact (hsE (hE0id.1 hmem).symm).elim
          · intro hp
            exact (hsU hp.symm).elim
    · have hkk : getRecordKey m id ≠ getRecordKey m id2 :=
        fun hc => hid (getRecordKey_inj m _ _ hc).symm
      rw [if_neg hkk]
      have hgoal : id2 ∈ entryAt st (idxKeyS m f s) ↔
          ∃ sr0, sget st (getRecordKey m id2) = some (Stored.srec sr0) ∧
            indexValueStr (alookup f (deserializeRec m.schema sr0)) = s :=
        hInv.2 f hf id2 s
      by_cases hsU : s = indexValueStr (alookup f (mergeRec existing updates))
      · rw [if_pos ((idxKeyS_mem_touchedKeys m hg f s hf (mergeRec existing updates)).2 hsU),
          mem_addOnce, or_iff_left hid]
        by_cases hsE : s = indexValueStr (alookup f existing)
        · rw [if_pos ((idxKeyS_mem_touchedKeys m hg f s hf existing).2 hsE), mem_filter_ne,
            and_iff_left hid]
          exact hgoal
        · rw [if_neg (fun hc => hsE ((idxKeyS_mem_touchedKeys m hg f s hf existing).1 hc))]
          exact hgoal
      · rw [if_neg (fun hc => hsU
          ((idxKeyS_mem_touchedKeys m hg f s hf (mergeRec existing updates)).1 hc))]
        by_cases hsE : s = indexValueStr (alookup f existing)
        · rw [if_pos ((idxKeyS_mem_touchedKeys m hg f s hf existing).2 hsE), mem_filter_ne,
            and_iff_left hid]
          exact hgoal
        · rw [if_neg (fun hc => hsE ((idxKeyS_mem_touchedKeys m hg f s hf existing).1 hc))]
          exact hgoal

theorem inv_update_unchanged (m : ModelDef) (hg : hygB m = true) (id : String)
    (updates existing sr : Rec) (st : Store) (hInv : Inv m st)
    (hsr : sget st (getRecordKey m id) = some (.srec sr))
    (hexd : existing = deserializeRec m.schema sr)
    (hval : validateSchema m.schema (mergeRec existing updates) = .ok ())
    (hch : anyIndexChangedB m updates existing = false) :
    Inv m (sput st (getRecordKey m id) (.srec (serializeRec (mergeRec existing updates)))) := by
  have hner : ∀ f s, getRecordKey m id ≠ idxKeyS m f s :=
    fun f s => getRecordKey_ne_idxKeyS m (hygB_tableName_ne m hg) (hygB_tableName_nc m hg) id f s
  constructor
  · intro id2 sv hsv
    rw [sget_sput] at hsv
    by_cases hkk : getRecordKey m id = getRecordKey m id2
    · rw [if_pos hkk] at hsv
      injection hsv with hsv
      exact ⟨serializeRec (mergeRec existing updates), hsv.symm⟩
    · rw [if_neg hkk] at hsv
      exact hInv.1 id2 sv hsv
  · intro f hf id2 s
    rw [entryAt_sput_ne st _ _ _ (hner f s), sget_sput]
    by_cases hid : id2 = id
    · subst hid
      rw [if_pos rfl, exists_srec_eq _ _ rfl,
        indexValueStr_deser_ser m.schema (mergeRec existing updates) hval f,
        anyIndexChangedB_false_same m updates existing hch f hf]
      rw [hInv.2 f hf id2 s, exists_rec_eq st _ sr hsr, ← hexd]
    · have hkk : getRecordKey m id ≠ getRecordKey m id2 :=
        fun hc => hid (getRecordKey_inj m _ _ hc).symm
      rw [if_neg hkk]
      exact hInv.2 f hf id2 s

theorem inv_delete_success (m : ModelDef) (hg : hygB m = true) (id : String)
    (existing sr : Rec) (st : Store) (hInv : Inv m st)
    (hsr : sget st (getRecordKey m id) = some (.srec sr))
    (hexd : existing = deserializeRec m.schema sr) :
    Inv m (sdel (removeFromIndexes m id existing st) (getRecordKey m id)) := by
  have hner : ∀ f s, getRecordKey m id ≠ idxKeyS m f s :=
    fun f s => getRecordKey_ne_idxKeyS m (hygB_tableName_ne m hg) (hygB_tableName_nc m hg) id f s
  have hE0id : ∀ f, f ∈ m.indexes → ∀ s,
      (id ∈ entryAt st (idxKeyS m f s) ↔ indexValueStr (alookup f existing) = s) := by
    intro f hf s
    rw [hInv.2 f hf id s, exists_rec_eq st _ sr hsr, ← hexd]
  constructor
  · intro id2 sv hsv
    rw [sget_sdel] at hsv
    by_cases hkk : getRecordKey m id = getRecordKey m id2
    · rw [if_pos hkk] at hsv
      cases hsv
    · rw [if_neg hkk, sget_removeFromIndexes,
        if_neg (getRecordKey_not_mem_touchedKeys m hg id2 existing m.indexes)] at hsv
      exact hInv.1 id2 sv hsv
  · intro f hf id2 s
    rw [entryAt_sdel_ne _ _ _ (hner f s), entryAt_removeFromIndexes, sget_sdel]
    by_cases hid : id2 = id
    · subst hid
      rw [if_pos rfl]
      constructor
      · intro hmem
        by_cases hsE : s = indexValueStr (alookup f existing)
        · rw [if_pos ((idxKeyS_mem_touchedKeys m hg f s hf existing).2 hsE)] at hmem
          exact ((((mem_filter_ne _ _ _).1 hmem).2) rfl).elim
        · rw [if_neg (fun hc => hsE ((idxKeyS_mem_touchedKeys m hg f s hf existing).1 hc))]
            at hmem
          exact (hsE ((hE0id f hf s).1 hmem).symm).elim
      · rintro ⟨sr0, h0, _⟩
        cases h0
    · have hkk : getRecordKey m id ≠ getRecordKey m id2 :=
        fun hc => hid (getRecordKey_inj m _ _ hc).symm
      rw [if_neg hkk, sget_removeFromIndexes,
        if_neg (getRecordKey_not_mem_touchedKeys m hg id2 existing m.indexes)]
      by_cases hsE : s = indexValueStr (alookup f existing)
      · rw [if_pos ((idxKeyS_mem_touchedKeys m hg f s hf existing).2 hsE), mem_filter_ne,
          and_iff_left hid]
        exact hInv.2 f hf id2 s
      · rw [if_neg (fun hc => hsE ((idxKeyS_mem_touchedKeys m hg f s hf existing).1 hc))]
        exact hInv.2 f hf id2 s

theorem inv_create (m : ModelDef) (hg : hygB m = true) (data : Rec) (st : Store)
    (hInv : Inv m st) : Inv m (create m data st).1 := by
  rw [create]
  split
  · exact hInv
  · split
    · exact hInv
    · split
      · exact hInv
      · rename_i u hval hfal x hex
        exact inv_create_success m hg data st hInv hval hex

theorem inv_update (m : ModelDef) (hg : hygB m = true) (id : String) (updates : Rec)
    (st : Store) (hInv : Inv m st) : Inv m (update m id updates st).1 := by
  rw [update]
  split
  · exact hInv
  · split
    · exact hInv
    · rename_i o existing hfind u hval
      obtain ⟨sr, hsr, hexd⟩ := find_srec m st id hInv.1 existing hfind
      by_cases hch : anyIndexChangedB m updates existing = true
      · rw [if_pos hch]
        exact inv_update_changed m hg id updates existing sr st hInv hsr hexd hval
      · rw [if_neg hch]
        exact inv_update_unchanged m hg id updates existing sr st hInv hsr hexd hval
          (Bool.not_eq_true _ ▸ hch)

theorem inv_deleteRec (m : ModelDef) (hg : hygB m = true) (id : String) (st : Store)
    (hInv : Inv m st) : Inv m (deleteRec m id st).1 := by
  rw [deleteRec]
  split
  · exact hInv
  · rename_i o existing hfind
    obtain ⟨sr, hsr, hexd⟩ := find_srec m st id hInv.1 existing hfind
    exact inv_delete_success m hg id existing sr st hInv hsr hexd

/-- The index invariant holds in every reachable store. -/
theorem reached_inv (m : ModelDef) (hg : hygB m = true) (st : Store) (h : Reached m st) :
    Inv m st := by
  induction h with
  | empty => exact inv_emptyStore m
  | createS st data _ ih => exact inv_create m hg data st ih
  | updateS st id updates _ ih => exact inv_update m hg id updates st ih
  | deleteS st id _ ih => exact inv_deleteRec m hg id st ih

theorem map_self_of_mem {α : Type} (l : List α) (h : α → α) (hp : ∀ x ∈ l, h x = x) :
    l.map h = l := by
  induction l with
  | nil => rfl
  | cons x rest ih =>
    rw [List.map_cons, hp x (List.mem_cons_self x rest),
      ih (fun y hy => hp y (List.mem_cons_of_mem x hy))]

theorem alookup_isSome_of_keymem {α : Type} (k : String) (l : List (String × α))
    (h : ∃ q ∈ l, q.1 = k) : ∃ v, alookup k l = some v := by
  induction l with
  | nil =>
    obtain ⟨q, hq, _⟩ := h
    cases hq
  | cons p rest ih =>
    by_cases h1 : p.1 = k
    · exact ⟨p.2, by rw [alookup, if_pos h1]⟩
    · obtain ⟨q, hq, hqk⟩ := h
      rcases List.mem_cons.1 hq with hqp | hqr
      · exact absurd (hqp ▸ hqk) h1
      · obtain ⟨v, hv⟩ := ih ⟨q, hqr, hqk⟩
        exact ⟨v, by rw [alookup, if_neg h1]; exact hv⟩

/-- C5 (amended): decoding the encoding restores a record that conforms
exactly to its schema (fields are exactly the schema-declared ones, values
pass validation) PROVIDED its Date values sit only under schema fields of
date kind. The proviso is needed because validation also accepts a Date
for an object-kind field (its typeof is object): such a Date is encoded to
its ISO string but not decoded back, refuting the unconditional claim.
Under the proviso, Dates go out as their canonical sortable ISO strings
and come back as equal Dates, everything else passes both ways
unchanged. -/
theorem c5_codec_roundtrip (m : ModelDef) (r : Rec)
    (hnd : (r.map Prod.fst).Nodup)
    (hval : validateSchema m.schema r = .ok ())
    (hsub : (r.all (fun p => m.schema.any (fun q => q.1 == p.1))) = true)
    (hdates : ∀ f d, alookup f r = some (Value.vdate d) →
      alookup f m.schema = some FieldType.date) :
    deserializeRec m.schema (serializeRec r) = r := by
  rw [serializeRec, deserializeRec, List.map_map]
  apply map_self_of_mem
  intro p hp
  obtain ⟨k, v⟩ := p
  have hkr : alookup k r = some v := alookup_eq_of_mem_nodup k r v hp hnd
  have hkey : ∃ q ∈ m.schema, q.1 = k := by
    rw [List.all_eq_true] at hsub
    have := hsub (k, v) hp
    rw [List.any_eq_true] at this
    obtain ⟨q, hq, hqk⟩ := this
    exact ⟨q, hq, eq_of_beq hqk⟩
  obtain ⟨ft, hft⟩ := alookup_isSome_of_keymem k m.schema hkey
  obtain ⟨v0, hv0, hvf⟩ := validateSchema_ok_mem m.schema r hval (k, ft) (alookup_mem k _ ft hft)
  rw [hkr] at hv0
  injection hv0 with hv0
  subst hv0
  show (k, deserializeVal m.schema k (serializeVal v)) = (k, v)
  by_cases hvdate : ∃ d, v = Value.vdate d
  · obtain ⟨d, rfl⟩ := hvdate
    have hftd : alookup k m.schema = some FieldType.date := hdates k d hkr
    rw [hft] at hftd
    injection hftd with hftd
    subst hftd
    obtain ⟨d2, hd2, hdv⟩ := validateField_date (Value.vdate d) k hvf
    injection hd2 with hd2
    rw [← hd2] at hdv
    simp only [serializeVal, deserializeVal, hft]
    rw [parseIsoD_isoString d hdv]
  · have hser : serializeVal v = v := by
      cases v <;> first
        | rfl
        | exact absurd ⟨_, rfl⟩ hvdate
    rw [hser]
    have hftne : ft ≠ FieldType.date := by
      intro hfd
      subst hfd
      obtain ⟨d, hd, _⟩ := validateField_date v k hvf
      exact hvdate ⟨d, hd⟩
    have hdes : deserializeVal m.schema k v = v := by
      cases ft <;> first
        | exact absurd rfl hftne
        | (cases v <;> simp [deserializeVal, hft])
    rw [hdes]

/-- C10: create on a record passing schema validation whose id field is
the empty string (falsy in JavaScript) fails with the must-have-id error
before any write: the returned store is exactly the input store, so
nothing was persisted and no index entry was touched. -/
theorem c10_empty_id_rejected (m : ModelDef) (data : Rec) (st : Store)
    (hval : validateSchema m.schema data = .ok ())
    (hid : alookup "id" data = some (.vstr "")) :
    create m data st = (st, .error .mustHaveId) := by
  rw [create, hval]
  show (if isFalsy (alookup "id" data) = true then (st, Except.error DOError.mustHaveId)
    else _) = (st, Except.error DOError.mustHaveId)
  rw [hid, if_pos (show isFalsy (some (Value.vstr "")) = true from rfl)]

/-- C4: in every store reachable by successful create, update and delete
operations (under the key-hygiene every real configuration satisfies),
for every stored record and every declared indexed field, the record's
identifier is present in the index entry keyed by the record's current
value of that field and absent from the entry for every other value
string; identifiers without a stored record appear in no entry at all. -/
theorem c4_index_entries_current_not_stale (m : ModelDef) (st : Store)
    (hg : hygB m = true) (h : Reached m st) :
    (∀ id sr, sget st (getRecordKey m id) = some (.srec sr) → ∀ f ∈ m.indexes,
      id ∈ entryAt st (getIndexKey m f (alookup f (deserializeRec m.schema sr))) ∧
      ∀ s, s ≠ indexValueStr (alookup f (deserializeRec m.schema sr)) →
        id ∉ entryAt st (idxKeyS m f s)) ∧
    (∀ id, sget st (getRecordKey m id) = none → ∀ f ∈ m.indexes, ∀ s,
      id ∉ entryAt st (idxKeyS m f s)) := by
  have hInv := reached_inv m hg st h
  constructor
  · intro id sr hsr f hf
    constructor
    · exact (hInv.2 f hf id _).2 ⟨sr, hsr, rfl⟩
    · intro s hs hmem
      obtain ⟨sr0, hsr0, hval0⟩ := (hInv.2 f hf id s).1 hmem
      rw [hsr] at hsr0
      injection hsr0 with hsr0
      injection hsr0 with hsr0
      rw [← hsr0] at hval0
      exact hs hval0.symm
  · intro id hnone f hf s hmem
    obtain ⟨sr0, hsr0, _⟩ := (hInv.2 f hf id s).1 hmem
    rw [hnone] at hsr0
    cases hsr0

/-- C9: the removal path never persists an empty identifier list (an
entry emptied by a removal is deleted outright), and consequently no
reachable store maps any key to an empty index entry. -/
theorem c9_no_empty_index_entries :
    (∀ (m : ModelDef) (id : String) (data : Rec) (st : Store),
      noEmptySids st → noEmptySids (removeFromIndexes m id data st)) ∧
    (∀ (m : ModelDef) (st : Store), Reached m st → noEmptySids st) :=
  ⟨fun m id data st h => noEmptySids_removeFromIndexes m id data st h,
   fun m st h => reached_noEmptySids m st h⟩

/-- C6: if a create succeeded, a second create of a validated record with
the same (coerced) identifier fails with the already-exists error and
returns the storage of the first create completely untouched: same data,
same write log. -/
theorem c6_duplicate_create_rejected (m : ModelDef) (hg : hygB m = true)
    (d d2 : Rec) (st st1 : Store) (r : Rec)
    (h1 : create m d st = (st1, .ok r))
    (hval2 : validateSchema m.schema d2 = .ok ())
    (hid2 : isFalsy (alookup "id" d2) = false)
    (hsame : indexValueStr (alookup "id" d2) = indexValueStr (alookup "id" d)) :
    create m d2 st1 = (st1, .error (.alreadyExists (indexValueStr (alookup "id" d2)))) := by
  rw [create] at h1
  split at h1
  · simp at h1
  · split at h1
    · simp at h1
    · split at h1
      · simp at h1
      · rename_i u hval1 hfal1 x hex1
        injection h1 with hst hr
        rw [create, hval2]
        show (if isFalsy (alookup "id" d2) = true then (st1, Except.error DOError.mustHaveId)
          else _) = _
        rw [if_neg (by simp [hid2]), hsame]
        have hrec : sget st1 (getRecordKey m (indexValueStr (alookup "id" d))) =
            some (.srec (serializeRec d)) := by
          rw [← hst, sget_updateIndexes,
            if_neg (getRecordKey_not_mem_touchedKeys m hg _ d m.indexes), sget_sput,
            if_pos rfl]
        rw [hrec]

/-- C7: the date-range filter keeps a record exactly when, for every
schema field of date kind whose value in the record is a (valid) Date,
the value is strictly greater than a set after bound and strictly less
than a set before bound; with several date fields the conjunction of all
their checks applies. Validity hypotheses discharge the NaN cases that
cannot arise for runtime-constructed Dates. -/
theorem c7_date_range_exclusive (m : ModelDef) (r : Rec) (afterB beforeB : Option DateV)
    (hvr : ∀ f d, (f, FieldType.date) ∈ m.schema → alookup f r = some (.vdate d) →
      d.validB = true)
    (hva : ∀ a, afterB = some a → a.validB = true)
    (hvb : ∀ b, beforeB = some b → b.validB = true) :
    dateKeep m afterB beforeB r = true ↔
      ∀ f d, (f, FieldType.date) ∈ m.schema → alookup f r = some (.vdate d) →
        (∀ a, afterB = some a → dateKey a < dateKey d) ∧
        (∀ b, beforeB = some b → dateKey d < dateKey b) := by
  rw [dateKeep, List.all_eq_true]
  constructor
  · intro h f d hmem hvd
    have hp := h (f, FieldType.date) hmem
    simp only [hvd] at hp
    rw [Bool.and_eq_true] at hp
    constructor
    · intro a ha
      have h1 := hp.1
      rw [ha] at h1
      simp only [Bool.not_eq_true', jsDateLeB, hvr f d hmem hvd, hva a ha, Bool.true_and,
        decide_eq_false_iff_not] at h1
      omega
    · intro b hb
      have h2 := hp.2
      rw [hb] at h2
      simp only [Bool.not_eq_true', jsDateGeB, hvr f d hmem hvd, hvb b hb, Bool.true_and,
        decide_eq_false_iff_not] at h2
      omega
  · intro h p hmem
    obtain ⟨f, ft⟩ := p
    rcases hft : ft with _ | _ | _ | _ | _ | _ <;> simp only
    case date =>
      rcases hvd : alookup f r with _ | v
      · simp [hvd]
      · rcases v with s | n | _ | b | _ | d | o | a <;> simp only [hvd]
        case vdate =>
          have hbounds := h f d (hft ▸ hmem) hvd
          rw [Bool.and_eq_true]
          constructor
          · rcases ha : afterB with _ | a
            · simp
            · have := hbounds.1 a ha
              simp only [Bool.not_eq_true', jsDateLeB, hvr f d (hft ▸ hmem) hvd, hva a ha,
                Bool.true_and, decide_eq_false_iff_not]
              omega
          · rcases hb : beforeB with _ | b
            · simp
            · have := hbounds.2 b hb
              simp only [Bool.not_eq_true', jsDateGeB, hvr f d (hft ▸ hmem) hvd, hvb b hb,
                Bool.true_and, decide_eq_false_iff_not]
              omega

/-- C8 (amended): a nonzero limit truncates the filtered and sorted result
to its first so-many records; an absent limit, and likewise the falsy
limit 0, return the full filtered and sorted set. -/
theorem c8_limit_semantics (m : ModelDef) (opts : QueryOptions) (st : Store) :
    (∀ n, opts.limit = some n → n ≠ 0 →
      query m opts st = (querySorted m opts st).take n) ∧
    (opts.limit = none → query m opts st = querySorted m opts st) ∧
    (opts.limit = some 0 → query m opts st = querySorted m opts st) := by
  refine ⟨?_, ?_, ?_⟩
  · intro n hlim hn
    rw [query, applyLimit, hlim]
    simp only [if_neg hn]
  · intro hlim
    rw [query, applyLimit, hlim]
  · intro hlim
    rw [query, applyLimit, hlim]
    simp

theorem query_nil_of_candidates_nil (m : ModelDef) (opts : QueryOptions) (st : Store)
    (h : queryCandidates m opts st = []) : query m opts st = [] := by
  have h1 : applyWhere opts [] = [] := by
    rw [applyWhere]
    rcases opts.whereQ with _ | w <;> simp
  have h2 : applyDateRange m opts [] = [] := by
    rw [applyDateRange]
    split <;> simp
  have h3 : applySort opts [] = [] := by
    rw [applySort]
    rcases opts.orderBy with _ | ⟨g, dir⟩ <;> simp [List.mergeSort_nil]
  have h4 : applyLimit opts [] = [] := by
    rw [applyLimit]
    rcases opts.limit with _ | n <;> simp [List.take_nil]
  rw [query, querySorted, queryLoad, h, List.filterMap_nil, h1, h2, h3, h4]

/-- C2: when a where clause is supplied, only its first entry is consulted
for candidates: if that first field is unindexed the candidate set starts
(and stays) empty and the whole query returns no results, whatever else is
in the options; if it is indexed, the candidates are exactly the index
entry for that field and value. -/
theorem c2_unindexed_first_where_field (m : ModelDef) (opts : QueryOptions) (st : Store)
    (f0 : String) (v0 : Value) (rest : Rec)
    (hw : opts.whereQ = some ((f0, v0) :: rest)) :
    (f0 ∉ m.indexes → query m opts st = []) ∧
    (f0 ∈ m.indexes → queryCandidates m opts st = entryAt st (getIndexKey m f0 (some v0))) := by
  constructor
  · intro hf0
    apply query_nil_of_candidates_nil
    simp [queryCandidates, hw, hf0]
  · intro hf0
    simp [queryCandidates, hw, hf0]

theorem getRecordKey_data_append (m : ModelDef) (id : String) :
    (getRecordKey m id).data = (m.tableName ++ ":").data ++ id.data := by
  rw [getRecordKey, String.data_append]

/-- C3 (amended): the full prefix scan happens only when no where clause
at all was supplied (an empty-but-present where clause skips it): with the
where option absent, the candidate identifiers are exactly the keys under
the record-type prefix with the prefix stripped, so every stored record is
considered. -/
theorem c3_absent_where_scans_namespace (m : ModelDef) (opts : QueryOptions) (st : Store)
    (hw : opts.whereQ = none) :
    queryCandidates m opts st =
      (st.data.filter (fun p => strStartsWith p.1 (m.tableName ++ ":"))).map
        (fun p => stripPre (m.tableName ++ ":") p.1) ∧
    (∀ id sr, sget st (getRecordKey m id) = some sr → id ∈ queryCandidates m opts st) := by
  have hcand : queryCandidates m opts st =
      (st.data.filter (fun p => strStartsWith p.1 (m.tableName ++ ":"))).map
        (fun p => stripPre (m.tableName ++ ":") p.1) := by
    simp [queryCandidates, hw]
  refine ⟨hcand, ?_⟩
  intro id sr hsr
  rw [hcand, List.mem_map]
  refine ⟨(getRecordKey m id, sr), ?_, ?_⟩
  · rw [List.mem_filter]
    constructor
    · exact alookup_mem _ _ _ hsr
    · rw [strStartsWith, List.isPrefixOf_iff_prefix, getRecordKey_data_append]
      exact List.prefix_append _ _
  · show stripPre (m.tableName ++ ":") (getRecordKey m id) = id
    rw [stripPre, getRecordKey_data_append, List.drop_left]

/-- The result of a successful update, as a single equation. -/
theorem update_ok_state (m : ModelDef) (id : String) (updates existing : Rec) (st : Store)
    (hfind : find m id st = some existing)
    (hval : validateSchema m.schema (mergeRec existing updates) = .ok ()) :
    update m id updates st =
      (if anyIndexChangedB m updates existing = true then
        updateIndexes m id (mergeRec existing updates)
          (sput (removeFromIndexes m id existing st) (getRecordKey m id)
            (Stored.srec (serializeRec (mergeRec existing updates))))
      else sput st (getRecordKey m id) (Stored.srec (serializeRec (mergeRec existing updates))),
       Except.ok (mergeRec existing updates)) := by
  rw [update, hfind]
  show (match validateSchema m.schema (mergeRec existing updates) with
    | Except.error e => (st, Except.error e)
    | Except.ok () =>
      (if anyIndexChangedB m updates existing = true then
        updateIndexes m id (mergeRec existing updates)
          (sput (removeFromIndexes m id existing st) (getRecordKey m id)
            (Stored.srec (serializeRec (mergeRec existing updates))))
      else sput st (getRecordKey m id) (Stored.srec (serializeRec (mergeRec existing updates))),
       Except.ok (mergeRec existing updates))) = _
  rw [hval]

/-- C1 (amended): change detection in update is per-operation, not
per-field, and uses strict (reference) inequality: primitives compare by
value, while a Date, object or array supplied in the update always counts
as changed, since the existing record's composites are freshly built by
find's deserialization and are never reference-equal to caller values. If
no declared indexed field so changed, the only backend write is the
record put (no index writes at all); if at least one did, then every
declared indexed field, including the unchanged ones, receives a write on
the index entry for its prior value (the remove-then-add pass runs over
all indexed fields). -/
theorem c1_per_update_index_write_granularity (m : ModelDef) (id : String)
    (updates existing : Rec) (st : Store)
    (hlog : st.log = [])
    (hfind : find m id st = some existing)
    (hval : validateSchema m.schema (mergeRec existing updates) = .ok ()) :
    (anyIndexChangedB m updates existing = false →
      (update m id updates st).1.log = [WOp.putW (getRecordKey m id)]) ∧
    (anyIndexChangedB m updates existing = true →
      ∀ f ∈ m.indexes, ∃ op ∈ (update m id updates st).1.log,
        wopKey op = getIndexKey m f (alookup f existing)) := by
  have hupd := update_ok_state m id updates existing st hfind hval
  constructor
  · intro hch
    rw [hupd, if_neg (by rw [hch]; simp)]
    show (sput st (getRecordKey m id)
      (Stored.srec (serializeRec (mergeRec existing updates)))).log = _
    rw [log_sput, hlog]
    rfl
  · intro hch f hf
    rw [hupd, if_pos hch]
    show ∃ op ∈ (updateIndexes m id (mergeRec existing updates)
      (sput (removeFromIndexes m id existing st) (getRecordKey m id)
        (Stored.srec (serializeRec (mergeRec existing updates))))).log,
      wopKey op = getIndexKey m f (alookup f existing)
    obtain ⟨op, hop, hkey⟩ :=
      log_foldl_rfiStep_covers m id existing m.indexes st f hf
    refine ⟨op, ?_, hkey⟩
    apply log_foldl_uiStep_mono
    rw [log_sput]
    exact List.mem_append_left _ hop

/-- A concrete model configuration used by concrete instances below: a
table with two indexed string fields. -/
def exModel : ModelDef :=
  ⟨[("id", .string), ("a", .string), ("b", .string)], ["a", "b"], "t"⟩

def exRecord : Rec := [("id", .vstr "1"), ("a", .vstr "x"), ("b", .vstr "y")]

/-- The store holding exRecord with both of its index entries (the data
the first create produces, with an empty write log). -/
def exStore : Store :=
  ⟨[("t:1", .srec exRecord), ("index:t:a:x", .sids ["1"]), ("index:t:b:y", .sids ["1"])], []⟩

def exOpts0 : QueryOptions := ⟨none, none, none, none, none⟩

def exOptsEmptyWhere : QueryOptions := ⟨some [], none, none, none, none⟩

def exOpts2 : QueryOptions := ⟨some [("c", .vstr "q")], none, none, none, none⟩

def exOptsLim : QueryOptions := ⟨none, none, none, some 1, none⟩

def exOptsLim0 : QueryOptions := ⟨none, none, none, some 0, none⟩

def exModel5 : ModelDef := ⟨[("id", .string), ("ts", .date)], ["ts"], "e"⟩

def exDate : DateV := ⟨2024, 1, 15, 10, 30, 0, 0⟩

def exAfter : DateV := ⟨2024, 1, 2, 0, 0, 0, 0⟩

def exRec5 : Rec := [("id", .vstr "a"), ("ts", .vdate exDate)]

def exRecEmptyId : Rec := [("id", .vstr ""), ("a", .vstr "x"), ("b", .vstr "y")]

/-- A model whose schema declares an object-kind field, and a record
holding a Date under that field: a Date has typeof object, so validation
accepts it there. -/
def exModelObj : ModelDef := ⟨[("id", .string), ("meta", .object)], [], "m"⟩

def exRecObj : Rec := [("id", .vstr "1"), ("meta", .vdate exDate)]

/-- C1 counterexample: updating only field a (b untouched) still issues
backend writes (a delete and a re-put) on the index entry of the unchanged
field b, refuting that unchanged indexed fields see no backend writes. -/
theorem c1_counterexample :
    alookup "b" [("a", Value.vstr "z")] = none ∧
    (update exModel "1" [("a", Value.vstr "z")] exStore).2 =
      Except.ok [("id", Value.vstr "1"), ("a", Value.vstr "z"), ("b", Value.vstr "y")] ∧
    WOp.delW "index:t:b:y" ∈ (update exModel "1" [("a", Value.vstr "z")] exStore).1.log ∧
    WOp.putW "index:t:b:y" ∈ (update exModel "1" [("a", Value.vstr "z")] exStore).1.log :=
  ⟨rfl, rfl, by decide, by decide⟩

/-- C1 witness: in the same update, the unchanged field b indeed receives
a write on the index key of its prior value. -/
theorem c1_witness : ∃ op ∈ (update exModel "1" [("a", Value.vstr "z")] exStore).1.log,
    wopKey op = getIndexKey exModel "b" (alookup "b" exRecord) :=
  (c1_per_update_index_write_granularity exModel "1" [("a", Value.vstr "z")] exRecord exStore
    rfl (by decide) rfl).2 (by decide) "b" (by decide)

/-- C2 witness: querying on the unindexed field c returns nothing even
though a record is stored. -/
theorem c2_witness : query exModel exOpts2 exStore = [] :=
  (c2_unindexed_first_where_field exModel exOpts2 exStore "c" (Value.vstr "q") [] rfl).1
    (by decide)

/-- C3 counterexample: an empty-but-present where clause yields zero
results even though a record is stored (and the same query with the where
option absent returns it), refuting the claim for every call with empty
conditions. -/
theorem c3_counterexample :
    query exModel exOptsEmptyWhere exStore = [] ∧
    sget exStore (getRecordKey exModel "1") = some (.srec exRecord) ∧
    query exModel exOpts0 exStore = [exRecord] := by
  decide

/-- C3 witness: with the where option absent, the stored record's id is
among the candidates derived from the prefix scan. -/
theorem c3_witness : "1" ∈ queryCandidates exModel exOpts0 exStore :=
  (c3_absent_where_scans_namespace exModel exOpts0 exStore rfl).2 "1" (.srec exRecord) (by decide)

/-- C4 witness: after a concrete create from the empty store, the id is in
the index entry for the current value of the indexed field a. -/
theorem c4_witness : "1" ∈ entryAt (create exModel exRecord emptyStore).1
    (getIndexKey exModel "a"
      (alookup "a" (deserializeRec exModel.schema (serializeRec exRecord)))) :=
  ((c4_index_entries_current_not_stale exModel (create exModel exRecord emptyStore).1
    (by decide) (Reached.createS emptyStore exRecord Reached.empty)).1 "1"
    (serializeRec exRecord) (by decide) "a" (by decide)).1

/-- C5 counterexample: a record whose fields are exactly the
schema-declared ones and which passes validation, but holds a Date under
an object-kind field, does not survive the round trip: the Date is encoded
to its ISO string and decoding leaves it a string, since the schema kind
of its field is not date. -/
theorem c5_counterexample :
    validateSchema exModelObj.schema exRecObj = .ok () ∧
    exRecObj.map Prod.fst = exModelObj.schema.map Prod.fst ∧
    (exRecObj.map Prod.fst).Nodup ∧
    deserializeRec exModelObj.schema (serializeRec exRecObj) ≠ exRecObj :=
  ⟨rfl, rfl, by decide, by decide⟩

/-- C5 witness: a concrete record with a Date field under a date-kind
schema field survives the encode and decode round trip. -/
theorem c5_witness : deserializeRec exModel5.schema (serializeRec exRec5) = exRec5 :=
  c5_codec_roundtrip exModel5 exRec5 (by decide) rfl (by decide)
    (by
      intro f d hfd
      by_cases h1 : "id" = f
      · simp [exRec5, alookup, h1] at hfd
      · by_cases h2 : "ts" = f
        · subst h2
          rfl
        · simp [exRec5, alookup, h1, h2] at hfd)

/-- C6 witness: creating the same record twice fails the second call with
the already-exists error and leaves the first store untouched. -/
theorem c6_witness : create exModel exRecord (create exModel exRecord emptyStore).1 =
    ((create exModel exRecord emptyStore).1,
      .error (.alreadyExists (indexValueStr (alookup "id" exRecord)))) :=
  c6_duplicate_create_rejected exModel (by decide) exRecord exRecord emptyStore
    (create exModel exRecord emptyStore).1 exRecord rfl rfl (by decide) rfl

/-- C7 witness: for the concrete record and after bound, the kept record's
timestamp is strictly greater than the bound. -/
theorem c7_witness :
    (∀ a, (some exAfter : Option DateV) = some a → dateKey a < dateKey exDate) ∧
    (∀ b, (none : Option DateV) = some b → dateKey exDate < dateKey b) :=
  (c7_date_range_exclusive exModel5 exRec5 (some exAfter) none
    (by
      intro f d hmem hvd
      rcases List.mem_cons.1 hmem with h | h
      · have hsnd : FieldType.date = FieldType.string := congrArg Prod.snd h
        cases hsnd
      · rcases List.mem_cons.1 h with h2 | h2
        · have hf : f = "ts" := congrArg Prod.fst h2
          subst hf
          have h3 : (some (Value.vdate exDate) : Option Value) = some (Value.vdate d) := hvd
          injection h3 with h3
          injection h3 with h3
          rw [← h3]
          decide
        · cases h2)
    (by
      intro a ha
      injection ha with ha
      rw [← ha]
      decide)
    (by
      intro b hb
      cases hb)).1 (by decide) "ts" exDate (by decide) (by decide)

/-- C8 counterexample: a supplied limit of 0 is falsy and skips
truncation, so the query returns the full one-record result rather than
the first zero records. -/
theorem c8_counterexample :
    exOptsLim0.limit = some 0 ∧
    query exModel exOptsLim0 exStore ≠ (querySorted exModel exOptsLim0 exStore).take 0 ∧
    (query exModel exOptsLim0 exStore).length = 1 := by
  decide

/-- C8 witness: a nonzero limit of 1 truncates to the first record of the
sorted result. -/
theorem c8_witness :
    query exModel exOptsLim exStore = (querySorted exModel exOptsLim exStore).take 1 :=
  (c8_limit_semantics exModel exOptsLim exStore).1 1 rfl (by decide)

/-- C9 witness: a concrete reachable store has no empty index entry under
a concrete key. -/
theorem c9_witness :
    sget (create exModel exRecord emptyStore).1 "index:t:a:x" ≠ some (.sids []) :=
  c9_no_empty_index_entries.2 exModel (create exModel exRecord emptyStore).1
    (Reached.createS emptyStore exRecord Reached.empty) "index:t:a:x"

/-- C10 witness: a schema-valid record with an empty-string id is rejected
with the must-have-id error and the empty store is returned unchanged. -/
theorem c10_witness : create exModel exRecEmptyId emptyStore = (emptyStore, .error .mustHaveId) :=
  c10_empty_id_rejected exModel exRecEmptyId emptyStore rfl (by decide)

end DOOrm
